import Mathlib

/-!
Verification of the library_organizer repository: a shallow embedding of the
classification / deduplication / rating engine (library_organizer.py and
src/core/analyzer.py) together with proofs and refutations of the behavioural
claims made by the specification.

Strings are modelled as `List Char`; Python regular-expression fragments that
the code applies to titles and filenames are translated into explicit
character-list scanners.  Machine floats of the source are modelled as `ℚ`.
-/

namespace LibOrg

/-! ## Character classes (ASCII model of Python's `str` predicates) -/

/-- Python `\s` (ASCII range): space, tab, newline, carriage return,
vertical tab, form feed. -/
def isSpaceChar (c : Char) : Bool :=
  c = ' ' || c = '\t' || c = '\n' || c = '\r' || c.toNat = 11 || c.toNat = 12

def isAsciiLower (c : Char) : Bool := 'a' ≤ c && c ≤ 'z'

def isAsciiUpper (c : Char) : Bool := 'A' ≤ c && c ≤ 'Z'

def isDigitChar (c : Char) : Bool := '0' ≤ c && c ≤ '9'

/-- Python `\w` (ASCII model): letters, digits, underscore. -/
def isWordChar (c : Char) : Bool :=
  isAsciiLower c || isAsciiUpper c || isDigitChar c || c = '_'

/-- Python `str.lower` on one character (ASCII model). -/
def lowerChar (c : Char) : Char :=
  if isAsciiUpper c then Char.ofNat (c.toNat + 32) else c

def lowerStr (l : List Char) : List Char := l.map lowerChar

/-- Python `str.strip` of leading whitespace. -/
def lstrip (l : List Char) : List Char := l.dropWhile isSpaceChar

/-- Python `str.strip` of trailing whitespace. -/
def rstrip : List Char → List Char
  | [] => []
  | c :: cs =>
    match rstrip cs with
    | [] => if isSpaceChar c then [] else [c]
    | r => c :: r

/-- Python `str.strip`. -/
def pyStrip (l : List Char) : List Char := rstrip (lstrip l)

/-- Word counter: the flag records whether the scan is inside a word. -/
def wordCountGo : Bool → List Char → Nat
  | _, [] => 0
  | inWord, c :: cs =>
    if isSpaceChar c then wordCountGo false cs
    else (if inWord then 0 else 1) + wordCountGo true cs

/-- Number of whitespace-separated words, Python `len(s.split())`. -/
def wordCount (l : List Char) : Nat := wordCountGo false l

/-- Substring containment, Python `sub in s`. -/
def containsSub : List Char → List Char → Bool
  | [], sub => sub.isEmpty
  | s@(_ :: cs), sub => sub.isPrefixOf s || containsSub cs sub

/-- Python `s.isdigit()` (ASCII model): non-empty and all digits. -/
def isDigits (l : List Char) : Bool := !l.isEmpty && l.all isDigitChar

/-- Decimal value of a digit string, Python `int(s)` on digit-only input. -/
def digitsToNat (l : List Char) : Nat :=
  l.foldl (fun acc c => acc * 10 + (c.toNat - '0'.toNat)) 0

/-! ## `_normalize_book_name` (library_organizer.py, lines 628-657) -/

/-- One step of the sequential prefix-stripping loop: if the (already
lower-cased) name starts with `p ++ " "`, drop that prefix. -/
def stripOnePrefix (p : List Char) (l : List Char) : List Char :=
  if (p ++ [' ']).isPrefixOf l then l.drop (p.length + 1) else l

/-- The prefix loop of `_normalize_book_name`:
`for prefix in ['hands on', 'hands-on', 'the', 'a', 'an']`. -/
def stripPrefixes (l : List Char) : List Char :=
  ["hands on", "hands-on", "the", "a", "an"].foldl
    (fun acc p => stripOnePrefix p.toList acc) l

def isOpenBracket (c : Char) : Bool := c = '[' || c = '('

def isCloseBracket (c : Char) : Bool := c = ']' || c = ')'

/-- State machine implementing `re.sub(r'[\[\(].*?[\]\)]', '', name)`:
on an opening bracket start buffering; a closing bracket discards the
buffered span; a newline (which `.` cannot match) or the end of input
flushes the buffer verbatim. -/
def removeBracketsGo : Option (List Char) → List Char → List Char
  | none, [] => []
  | none, c :: cs =>
    if isOpenBracket c then removeBracketsGo (some [c]) cs
    else c :: removeBracketsGo none cs
  | some buf, [] => buf.reverse
  | some buf, c :: cs =>
    if isCloseBracket c then removeBracketsGo none cs
    else if c = '\n' then buf.reverse ++ '\n' :: removeBracketsGo none cs
    else removeBracketsGo (some (c :: buf)) cs

def removeBrackets (l : List Char) : List Char := removeBracketsGo none l

/-- `re.sub(r'[^\w\s-]', '', name)`. -/
def removeSpecial (l : List Char) : List Char :=
  l.filter (fun c => isWordChar c || isSpaceChar c || c = '-')

/-- Hyphen-or-whitespace, the character class of `r'[-\s]+'`. -/
def isHypSpace (c : Char) : Bool := c = '-' || isSpaceChar c

/-- `re.sub(r'[-\s]+', ' ', name)`: the flag records whether we are inside a
run that has already emitted its single space. -/
def collapseGo : Bool → List Char → List Char
  | _, [] => []
  | inRun, c :: cs =>
    if isHypSpace c then
      if inRun then collapseGo true cs else ' ' :: collapseGo true cs
    else c :: collapseGo false cs

def collapseRuns (l : List Char) : List Char := collapseGo false l

/-- One step of the sequential suffix-stripping loop: if the name ends with
`" " ++ s`, drop that suffix. -/
def stripOneSuffix (s : List Char) (l : List Char) : List Char :=
  if ([' '] ++ s).isSuffixOf l then l.take (l.length - (s.length + 1)) else l

/-- The suffix loop of `_normalize_book_name`:
`for suffix in ['.pdf', 'book', 'ebook', 'edition', 'ed']`. -/
def stripSuffixes (l : List Char) : List Char :=
  [".pdf", "book", "ebook", "edition", "ed"].foldl
    (fun acc s => stripOneSuffix s.toList acc) l

/-- `_normalize_book_name` from library_organizer.py. -/
def normalizeBookName (name : List Char) : List Char :=
  if name.isEmpty then []
  else
    pyStrip (stripSuffixes (collapseRuns (removeSpecial (removeBrackets
      (stripPrefixes (lowerStr name))))))

/-! ## Records and duplicate resolution (library_organizer.py, lines 565-694) -/

/-- The record dictionary built by `_process_single_file` as consumed by
`_find_duplicates` / `_metadata_completeness_score` (string fields empty when
absent, matching the dict defaults). -/
structure BookL where
  path : List Char
  name : List Char
  author : List Char
  year : List Char
  size : Nat
  page_count : Nat
  subject : List Char
  keywords : List Char
deriving DecidableEq, Repr

/-- `(original_path, duplicate_path)` as appended to the `duplicates` list. -/
structure DupEdge where
  original_path : List Char
  duplicate_path : List Char
deriving DecidableEq, Repr

/-- The filename part after the last `/` of a path. -/
def basenameL (l : List Char) : List Char :=
  (l.reverse.takeWhile (fun c => c ≠ '/')).reverse

def lastIdxOf (c : Char) (l : List Char) : Option Nat :=
  (l.reverse.findIdx? (fun d => d = c)).map (fun j => l.length - 1 - j)

/-- `pathlib.Path(p).stem`: the basename with its final suffix removed; a dot
at position 0 or at the very end does not start a suffix. -/
def stemL (l : List Char) : List Char :=
  let b := basenameL l
  match lastIdxOf '.' b with
  | some i => if 0 < i ∧ i < b.length - 1 then b.take i else b
  | none => b

/-- `_metadata_completeness_score` from library_organizer.py. -/
def metaScore (b : BookL) : Nat :=
  let authorScore :=
    if !b.author.isEmpty then
      2 + (if wordCount b.author > 1 then 1 else 0)
        + (if !(["unknown", "various", "anonymous"].any
              (fun x => containsSub (lowerStr b.author) x.toList)) then 1 else 0)
    else 0
  let yearScore :=
    if !b.year.isEmpty && isDigits b.year then
      if 1900 ≤ digitsToNat b.year && digitsToNat b.year ≤ 2024 then 2 else 0
    else 0
  let titleScore :=
    if !b.name.isEmpty then
      1 + (if !(".pdf".toList.isSuffixOf b.name) then 1 else 0)
        + (if wordCount b.name > 2 then 1 else 0)
    else 0
  let extraScore :=
    (if !b.subject.isEmpty then 1 else 0) + (if !b.keywords.isEmpty then 1 else 0)
  authorScore + yearScore + titleScore + extraScore

/-- Add an element to a list of unique name variants (Python `set.add`). -/
def addUnique (x : List Char) (l : List (List Char)) : List (List Char) :=
  if x ∈ l then l else l ++ [x]

/-- The set `names` of normalized name variants built by `_find_duplicates`
for one record: current name, filename stem, and, when both author and name
are non-empty, `f"{author} {name}"`. -/
def bookNames (b : BookL) : List (List Char) :=
  let base := addUnique (normalizeBookName (stemL b.path)) [normalizeBookName b.name]
  if !b.author.isEmpty && !b.name.isEmpty then
    addUnique (normalizeBookName (b.author ++ ' ' :: b.name)) base
  else base

/-- A duplicate-matching signature `(size, page_count, normalized_name)`. -/
abbrev Sig : Type := Nat × Nat × List Char

def signatures (b : BookL) : List Sig :=
  (bookNames b).map (fun n => (b.size, b.page_count, n))

/-- The `seen_books` dict, most recent insertion first. -/
abbrev SeenMap : Type := List (Sig × BookL)

def emptySeen : SeenMap := []

def lookupSeen : SeenMap → Sig → Option BookL
  | [], _ => none
  | (s', b) :: m, s => if s' = s then some b else lookupSeen m s

/-- The matching loop `for sig in signatures: if sig in seen_books: ... break`;
Python iterates the signature set in unspecified hash order, modelled here by
the construction order of the variant list. -/
def findMatch (m : SeenMap) : List Sig → Option (Sig × BookL)
  | [] => none
  | s :: rest =>
    match lookupSeen m s with
    | some b => some (s, b)
    | none => findMatch m rest

/-- `for sig in signatures: seen_books[sig] = book`. -/
def insertAllSigs (m : SeenMap) (sigs : List Sig) (b : BookL) : SeenMap :=
  sigs.foldl (fun acc s => (s, b) :: acc) m

/-- The body of the `for book in all_books` loop of `_find_duplicates`,
acting on the state `(seen_books, duplicates)`. -/
def stepBook (st : SeenMap × List DupEdge) (b : BookL) : SeenMap × List DupEdge :=
  match findMatch st.1 (signatures b) with
  | some (_, mb) =>
    if metaScore b > metaScore mb then
      (insertAllSigs st.1 (signatures b) b, st.2 ++ [⟨b.path, mb.path⟩])
    else
      (st.1, st.2 ++ [⟨mb.path, b.path⟩])
  | none => (insertAllSigs st.1 (signatures b) b, st.2)

/-- `_find_duplicates` from library_organizer.py. -/
def findDuplicates (books : List BookL) : List DupEdge :=
  (books.foldl stepBook (emptySeen, [])).2

/-! ## Filename field extraction (library_organizer.py lines 215-231, 759-803) -/

/-- `\s*\[(\d{4})\]` at the front of the remainder (the `\s*` is forced
greedy because `[` is not a space); returns the captured year digits. -/
def bracketYear (l : List Char) : Option (List Char) :=
  match l.dropWhile isSpaceChar with
  | '[' :: d1 :: d2 :: d3 :: d4 :: ']' :: _ =>
    if [d1, d2, d3, d4].all isDigitChar then some [d1, d2, d3, d4] else none
  | _ => none

/-- Lazy `(.+?)` for the author group followed by `\s*\[(\d{4})\]`: grow the
group one (non-newline) character at a time, stopping at the first point
where the year tail matches. -/
def growAuthor (acc : List Char) : List Char → Option (List Char × List Char)
  | [] => none
  | c :: cs =>
    if c = '\n' then none
    else
      let acc' := acc ++ [c]
      match bracketYear cs with
      | some y => some (acc', y)
      | none => growAuthor acc' cs

/-- Candidate remainders for a greedy, backtrackable `\s*`, longest drop
first (the order a regex engine tries them). -/
def spaceSuffixes : List Char → List (List Char)
  | [] => [[]]
  | c :: cs => if isSpaceChar c then spaceSuffixes cs ++ [c :: cs] else [c :: cs]

/-- `\s*(.+?)\s*\[(\d{4})\]` after the separator of patterns 1 and 2. -/
def afterSep (rest : List Char) : Option (List Char × List Char) :=
  (spaceSuffixes rest).findSome? (growAuthor [])

/-- Lazy `(.+?)` for the author group of pattern 3, followed by
`\)\s*\[(\d{4})\]`. -/
def growAuthorParen (acc : List Char) : List Char → Option (List Char × List Char)
  | [] => none
  | c :: cs =>
    if c = '\n' then none
    else
      let acc' := acc ++ [c]
      match cs with
      | ')' :: cs2 =>
        (match bracketYear cs2 with
         | some y => some (acc', y)
         | none => growAuthorParen acc' cs)
      | _ => growAuthorParen acc' cs

/-- The part of patterns 1-3 after the lazy title group: `\s*` then the
literal separator (`-`, `by`, or `(`), then the author and year groups. -/
def afterTitle (paren : Bool) (sep : List Char) (rest : List Char) :
    Option (List Char × List Char) :=
  let r := rest.dropWhile isSpaceChar
  if sep.isPrefixOf r then
    if paren then growAuthorParen [] (r.drop sep.length)
    else afterSep (r.drop sep.length)
  else none

/-- Lazy `(.+?)` for the title group: grow one non-newline character at a
time, at each point testing the rest of the pattern. -/
def growTitle (paren : Bool) (sep : List Char) (acc : List Char) :
    List Char → Option (List Char × List Char × List Char)
  | [] => none
  | c :: cs =>
    if c = '\n' then none
    else
      let acc' := acc ++ [c]
      match afterTitle paren sep cs with
      | some (a, y) => some (acc', a, y)
      | none => growTitle paren sep acc' cs

/-- `re.search` for one of the three `extract_book_info` patterns: try each
start position left to right. -/
def searchPattern (paren : Bool) (sep : List Char) :
    List Char → Option (List Char × List Char × List Char)
  | [] => none
  | l@(_ :: cs) =>
    match growTitle paren sep [] l with
    | some r => some r
    | none => searchPattern paren sep cs

/-- Python `filename.replace(".pdf", "")` (all occurrences, left to right). -/
def stripPdfAll : List Char → List Char
  | '.' :: 'p' :: 'd' :: 'f' :: rest => stripPdfAll rest
  | c :: cs => c :: stripPdfAll cs
  | [] => []

/-- `extract_book_info` from library_organizer.py: try
`Name - Author [Year]`, `Name by Author [Year]`, `Name (Author) [Year]`
in order; on failure return the filename (with `.pdf` removed) as the name. -/
def extractBookInfo (filename : List Char) : List Char × List Char × List Char :=
  match searchPattern false ['-'] filename with
  | some (n, a, y) => (pyStrip n, pyStrip a, pyStrip y)
  | none =>
    match searchPattern false ['b', 'y'] filename with
    | some (n, a, y) => (pyStrip n, pyStrip a, pyStrip y)
    | none =>
      match searchPattern true ['('] filename with
      | some (n, a, y) => (pyStrip n, pyStrip a, pyStrip y)
      | none => (stripPdfAll filename, [], [])

/-- Result record of `_parse_filename`. -/
structure ParsedName where
  author : List Char
  title : List Char
  year : List Char
deriving DecidableEq, Repr

/-- `[A-Z][a-z]+` and then anything: one upper-case letter followed by at
least one lower-case letter. -/
def upperLowerWord : List Char → Bool
  | c :: d :: _ => isAsciiUpper c && isAsciiLower d
  | _ => false

/-- `\s+[A-Z][a-z]+` (the `\s+` is forced greedy because `[A-Z]` cannot
match a space). -/
def spacesThenWord : List Char → Bool
  | c :: ls => isSpaceChar c && upperLowerWord (ls.dropWhile isSpaceChar)
  | [] => false

/-- `\.?` then `\s+[A-Z][a-z]+`. -/
def optDotThen (l : List Char) : Bool :=
  (match l with
   | '.' :: ls => spacesThenWord ls
   | _ => false) || spacesThenWord l

/-- `[A-Z]?\.?\s+[A-Z][a-z]+`. -/
def optUpperThen (l : List Char) : Bool :=
  (match l with
   | c :: ls => isAsciiUpper c && optDotThen ls
   | _ => false) || optDotThen l

/-- `\s*` (with backtracking) then `[A-Z]?\.?\s+[A-Z][a-z]+`. -/
def skipSpacesThen : List Char → Bool
  | [] => false
  | l@(c :: cs) => optUpperThen l || (isSpaceChar c && skipSpacesThen cs)

/-- `re.match(r'^[A-Z]\.\s*[A-Z]?\.?\s+[A-Z][a-z]+', part)`: the
"initials + surname" test of `_parse_filename`. -/
def initialsMatch : List Char → Bool
  | a :: '.' :: rest => isAsciiUpper a && skipSpacesThen rest
  | _ => false

/-- `re.search(r'\[(\d{4})\]$', filename)`: a bracketed year at the very
end; returns the digits and the text before the bracket. -/
def yearAtEnd (l : List Char) : Option (List Char × List Char) :=
  match l.reverse with
  | ']' :: d4 :: d3 :: d2 :: d1 :: '[' :: rest =>
    if [d1, d2, d3, d4].all isDigitChar then some ([d1, d2, d3, d4], rest.reverse)
    else none
  | _ => none

/-- Python `filename.split(' - ')` (leftmost, non-overlapping). -/
def splitDash (acc : List Char) : List Char → List (List Char)
  | ' ' :: '-' :: ' ' :: rest => acc.reverse :: splitDash [] rest
  | c :: cs => splitDash (c :: acc) cs
  | [] => [acc.reverse]

/-- The author/title/year assignment of `_parse_filename` once the year has
been removed. -/
def parseCore (core : List Char) (y : List Char) : ParsedName :=
  match splitDash [] core with
  | [p0, p1] =>
    if initialsMatch p0 then ⟨pyStrip p0, pyStrip p1, y⟩
    else ⟨pyStrip p1, pyStrip p0, y⟩
  | _ => ⟨[], pyStrip core, y⟩

/-- `_parse_filename` from library_organizer.py. -/
def parseFilename (file_path : List Char) : ParsedName :=
  let filename := basenameL file_path
  let filename :=
    if ".pdf".toList.isSuffixOf filename then filename.take (filename.length - 4)
    else filename
  match yearAtEnd filename with
  | some (y, core) => parseCore ((core.reverse.dropWhile isSpaceChar).reverse) y
  | none => parseCore filename []

/-! ## `estimate_reading_time` (library_organizer.py, lines 56-61, 1118-1134) -/

/-- The `reading_speeds` table from `BookLibraryOrganizer.__init__`. -/
def readingSpeeds : List (String × Nat) :=
  [("easy", 30), ("moderate", 25), ("hard", 20), ("extreme", 15)]

/-- `estimate_reading_time`: `None` for a falsy page count, otherwise
`math.ceil(page_count / reading_speeds[difficulty])`; an unknown difficulty
raises `KeyError`, modelled by `Except.error`. -/
def estimateReadingTime (page_count : Nat) (difficulty : String) :
    Except String (Option Nat) :=
  if page_count = 0 then .ok none
  else
    match readingSpeeds.lookup difficulty with
    | some s => .ok (some (Int.toNat ⌈(page_count : ℚ) / (s : ℚ)⌉))
    | none => .error "KeyError"

/-! ## The analyzer record (src/models/book.py) -/

/-- The `Book` dataclass as consumed by `BookAnalyzer`: `content` and
`publisher` are probed with `hasattr` and truthiness, so they are optional. -/
structure BookA where
  path : List Char
  title : List Char
  author : Option (List Char)
  year : Option Int
  page_count : Nat
  size_bytes : Nat
  topics : List (String × String)
  difficulty : String
  content : Option (List Char)
  publisher : Option (List Char)
deriving DecidableEq, Repr

/-! ## `determine_difficulty` (src/core/analyzer.py, lines 190-269) -/

/-- A fragment of the title regexes of `complexity_indicators`: either a
literal alternative or `X.?Y` (one optional non-newline character). -/
inductive TPat where
  | lit : String → TPat
  | gapOpt : String → String → TPat
deriving DecidableEq, Repr

/-- `X.?Y` at the head of a list: `X` then `Y`, or `X`, one non-newline
character, then `Y`. -/
def gapOptAt (a b : List Char) (l : List Char) : Bool :=
  (a ++ b).isPrefixOf l ||
    (a.isPrefixOf l &&
      match l.drop a.length with
      | c :: cs => c ≠ '\n' && b.isPrefixOf cs
      | [] => false)

def gapOptSearch (a b : List Char) : List Char → Bool
  | [] => false
  | l@(_ :: cs) => gapOptAt a b l || gapOptSearch a b cs

def matchTPat (text : List Char) : TPat → Bool
  | .lit s => containsSub text s.toList
  | .gapOpt a b => gapOptSearch a.toList b.toList text

/-- One regex of a tier matches iff any of its `|`-alternatives matches;
the tier fires iff any of its regexes matches (the `break` in the source
exits the per-tier pattern loop after the first hit, and every hit in a
tier contributes the same delta). -/
def tierMatches (title : List Char) (tier : List (List TPat)) : Bool :=
  tier.any (fun pat => pat.any (matchTPat title))

def easyTier : List (List TPat) :=
  [[.lit "beginner", .lit "basic", .lit "introduction", .lit "primer"],
   [.gapOpt "getting" "started", .lit "learn", .lit "simple"],
   [.lit "fundamentals", .lit "basics", .lit "essential"]]

def moderateTier : List (List TPat) :=
  [[.lit "intermediate", .lit "practical", .lit "handbook"],
   [.lit "guide", .lit "development", .lit "implementation"],
   [.lit "cookbook", .lit "patterns", .lit "practices"]]

def hardTier : List (List TPat) :=
  [[.lit "advanced", .lit "mastering", .lit "complete"],
   [.lit "architecture", .lit "design", .lit "principles"],
   [.lit "performance", .lit "optimization"]]

def extremeTier : List (List TPat) :=
  [[.lit "theoretical", .lit "theory", .lit "academic"],
   [.gapOpt "formal" "methods", .lit "computation"],
   [.lit "distributed", .lit "concurrent", .lit "parallel"]]

/-- `complexity_indicators` with the per-tier deltas `{easy: -2, moderate:
0, hard: 2, extreme: 4}`, in dict insertion order. -/
def complexityTiers : List (List (List TPat) × ℚ) :=
  [(easyTier, -2), (moderateTier, 0), (hardTier, 2), (extremeTier, 4)]

/-- The title-scan of `determine_difficulty`: every tier whose patterns
match the (lower-cased) title contributes its delta. -/
def diffTierScore (titleLower : List Char) : ℚ :=
  complexityTiers.foldl
    (fun acc td => acc + (if tierMatches titleLower td.1 then td.2 else 0)) 0

/-- The `topic_complexity` table of `determine_difficulty`. -/
def topicComplexity : List (String × List (String × ℚ)) :=
  [("Computer Science",
    [("Theory", 3), ("Algorithms", 2), ("Data Structures", 2),
     ("Compilers", 3), ("Operating Systems", 2)]),
   ("Artificial Intelligence",
    [("Deep Learning", 3), ("Machine Learning", 2), ("Statistics", 2)])]

/-- `for topic, subtopic in book.topics: score += topic_complexity[...]`. -/
def topicBonus (topics : List (String × String)) : ℚ :=
  topics.foldl
    (fun acc ts =>
      match (topicComplexity.lookup ts.1).bind (fun subs => subs.lookup ts.2) with
      | some v => acc + v
      | none => acc) 0

/-- The page-count adjustment of `determine_difficulty`. -/
def pageAdj (pc : Nat) : ℚ :=
  if pc > 600 then 2 else if pc > 400 then 1 else if pc < 200 then -1 else 0

/-- The final threshold mapping of `determine_difficulty`. -/
def difficultyFromScore (s : ℚ) : String :=
  if s ≤ -2 then "easy"
  else if s ≤ 1 then "moderate"
  else if s ≤ 3 then "hard"
  else "extreme"

def diffScore (b : BookA) : ℚ :=
  diffTierScore (lowerStr b.title) + topicBonus b.topics + pageAdj b.page_count

/-- `determine_difficulty` from src/core/analyzer.py. -/
def determineDifficulty (b : BookA) : String := difficultyFromScore (diffScore b)

/-- The difficulty algorithm as the claim words it: scan the tiers in order
and add only the delta of the FIRST tier whose patterns match the title,
scanning no further tiers. -/
def diffTierScoreFirstOnly (titleLower : List Char) : ℚ :=
  (complexityTiers.findSome?
    (fun td => if tierMatches titleLower td.1 then some td.2 else none)).getD 0

/-- The claim's version of `determine_difficulty` (first matching tier
only). -/
def determineDifficultyClaim (b : BookA) : String :=
  difficultyFromScore
    (diffTierScoreFirstOnly (lowerStr b.title) + topicBonus b.topics
      + pageAdj b.page_count)

/-- The amended description of `determine_difficulty`: each of the four
tiers whose patterns match the title contributes its delta (the scan does
not stop at the first matching tier); then the topic bonus, the page-count
adjustment, and the fixed thresholds. -/
def determineDifficultyAmended (b : BookA) : String :=
  let t := lowerStr b.title
  difficultyFromScore
    ((if tierMatches t easyTier then -2 else 0)
      + (if tierMatches t moderateTier then 0 else 0)
      + (if tierMatches t hardTier then 2 else 0)
      + (if tierMatches t extremeTier then 4 else 0)
      + topicBonus b.topics + pageAdj b.page_count)

/-! ## `_rate_book` (src/core/analyzer.py, lines 720-892) -/

/-- `w` at the head of the list followed by a word boundary. -/
def boundedAt (w : List Char) (l : List Char) : Bool :=
  w.isPrefixOf l &&
    (match l.drop w.length with
     | [] => true
     | c :: _ => !isWordChar c)

/-- `\bw\b`: scan, remembering whether the previous character was a
non-word character (the start of the string counts as a boundary). -/
def wordSearchGo (w : List Char) (prevBoundary : Bool) : List Char → Bool
  | [] => false
  | l@(c :: cs) => (prevBoundary && boundedAt w l) || wordSearchGo w (!isWordChar c) cs

def containsWordB (text w : List Char) : Bool := wordSearchGo w true text

/-- `w\b` (trailing boundary only, e.g. `practice[s]?\b`). -/
def trailBoundSearch (text w : List Char) : Bool :=
  match text with
  | [] => false
  | _ :: cs => boundedAt w text || trailBoundSearch cs w

/-- `a\s+b` at the head of the list (the `\s+` is forced greedy because `b`
starts with a non-space character). -/
def gapWsAt (a b : List Char) (l : List Char) : Bool :=
  a.isPrefixOf l &&
    (match l.drop a.length with
     | c :: cs => isSpaceChar c && b.isPrefixOf (cs.dropWhile isSpaceChar)
     | [] => false)

/-- `a\s+b` anywhere (e.g. `code\s+example`). -/
def gapWsSearch (text a b : List Char) : Bool :=
  match text with
  | [] => false
  | _ :: cs => gapWsAt a b text || gapWsSearch cs a b

/-- `\ba\s+b` (leading boundary, e.g. `\bdesign\s+pattern`). -/
def leadGapSearchGo (a b : List Char) (prevBoundary : Bool) : List Char → Bool
  | [] => false
  | l@(c :: cs) => (prevBoundary && gapWsAt a b l) || leadGapSearchGo a b (!isWordChar c) cs

def leadGapSearch (text a b : List Char) : Bool := leadGapSearchGo a b true text

/-- `w\s+\d+` at the head (e.g. `example[s]?\s+\d+` via its two variants). -/
def wordNumAt (w : List Char) (l : List Char) : Bool :=
  w.isPrefixOf l &&
    (match l.drop w.length with
     | c :: cs => isSpaceChar c &&
        (match cs.dropWhile isSpaceChar with
         | d :: _ => isDigitChar d
         | [] => false)
     | [] => false)

def wordNumSearch (text w : List Char) : Bool :=
  match text with
  | [] => false
  | _ :: cs => wordNumAt w text || wordNumSearch cs w

/-- `hands[-\s]on`: "hands", exactly one hyphen-or-space, "on". -/
def handsOnAt (l : List Char) : Bool :=
  "hands".toList.isPrefixOf l &&
    (match l.drop 5 with
     | c :: cs => (c = '-' || isSpaceChar c) && "on".toList.isPrefixOf cs
     | [] => false)

def handsOnSearch : List Char → Bool
  | [] => false
  | l@(_ :: cs) => handsOnAt l || handsOnSearch cs

/-- `(?:^|\n)kw` for one of several keywords. -/
def lineStartKw (text : List Char) (kws : List String) : Bool :=
  kws.any (fun k => k.toList.isPrefixOf text) || lineStartKwGo text kws
where
  lineStartKwGo : List Char → List String → Bool
    | [], _ => false
    | '\n' :: cs, kws => kws.any (fun k => k.toList.isPrefixOf cs) || lineStartKwGo cs kws
    | _ :: cs, kws => lineStartKwGo cs kws

/-- `_calculate_recency_score` (current year fixed at 2024). -/
def calcRecency (b : BookA) : ℚ :=
  match b.year with
  | none => 0
  | some y =>
    if y = 0 then 0
    else
      let age : ℤ := 2024 - y
      if age ≤ 1 then 1
      else if age ≤ 3 then 0.8
      else if age ≤ 5 then 0.6
      else if age ≤ 7 then 0.4
      else if age ≤ 10 then 0.2
      else 0

/-- `_calculate_comprehensiveness_score`. -/
def calcComprehensiveness (b : BookA) : ℚ :=
  if b.page_count ≠ 0 then
    if b.page_count > 600 then 1
    else if b.page_count > 400 then 0.8
    else if b.page_count > 300 then 0.6
    else if b.page_count > 200 then 0.4
    else if b.page_count > 100 then 0.2
    else 0
  else 0

/-- `reputable_publishers`, in dict insertion order. -/
def reputablePublishers : List (String × ℚ) :=
  [("oreilly", 0.9), ("addison wesley", 0.9), ("manning", 0.8),
   ("apress", 0.7), ("packt", 0.6), ("springer", 0.8), ("pearson", 0.7),
   ("microsoft press", 0.8), ("wiley", 0.7), ("mcgraw hill", 0.7),
   ("academic press", 0.8), ("cambridge", 0.9), ("mit press", 0.9)]

/-- The publisher part of `_calculate_authority_score` (first substring hit
wins, then `break`). -/
def pubScore (b : BookA) : ℚ :=
  match b.publisher with
  | some p =>
    (reputablePublishers.findSome?
      (fun pv => if containsSub (lowerStr p) pv.1.toList then some pv.2 else none)).getD 0
  | none => 0

/-- Number of `academic_indicators` regexes found in the content
(`\bcitation[s]?\b` via its two whole-word variants). -/
def academicMatchCount (textLower : List Char) : Nat :=
  List.count true
    [containsWordB textLower "reference".toList,
     containsWordB textLower "theorem".toList,
     containsWordB textLower "proof".toList,
     containsWordB textLower "lemma".toList,
     containsWordB textLower "citation".toList || containsWordB textLower "citations".toList,
     containsWordB textLower "references".toList,
     containsWordB textLower "bibliography".toList]

/-- `_calculate_authority_score`. -/
def calcAuthority (b : BookA) : ℚ :=
  let s := pubScore b
  let s := s +
    (match b.content with
     | some c =>
       if !c.isEmpty then min 0.5 ((academicMatchCount (lowerStr c) : ℚ) * 0.1) else 0
     | none => 0)
  min 1 s

/-- The `difficulty_scores` table of `_calculate_technical_depth_score`
(its keys never overlap the values `determine_difficulty` produces, so the
`.get` default 0.0 applies in the pipeline). -/
def difficultyScoresTD : List (String × ℚ) :=
  [("beginner", -0.3), ("intermediate", 0), ("advanced", 0.4), ("expert", 0.7)]

/-- `_calculate_technical_depth_score`. -/
def calcTechnicalDepth (b : BookA) : ℚ :=
  let base := (difficultyScoresTD.lookup b.difficulty).getD 0
  let add :=
    match b.content with
    | some c =>
      if !c.isEmpty then
        let t := lowerStr c
        (if containsWordB t "algorithm".toList then (0.2 : ℚ) else 0)
          + (if containsWordB t "complexity".toList then 0.2 else 0)
          + (if containsWordB t "implementation".toList then 0.1 else 0)
          + (if containsWordB t "architecture".toList then 0.2 else 0)
          + (if gapWsSearch t "code".toList "example".toList then 0.1 else 0)
          + (if leadGapSearch t "design".toList "pattern".toList then 0.2 else 0)
          + (if containsWordB t "performance".toList then 0.1 else 0)
          + (if containsWordB t "optimization".toList then 0.2 else 0)
      else 0
    | none => 0
  min 1 (base + add)

/-- `_calculate_practical_value_score`. -/
def calcPracticalValue (b : BookA) : ℚ :=
  let s :=
    match b.content with
    | some c =>
      if !c.isEmpty then
        let t := lowerStr c
        (if lineStartKw t ["def", "class", "function"] then (0.2 : ℚ) else 0)
          + (if lineStartKw t ["var", "let", "const"] then 0.2 else 0)
          + (if wordNumSearch t "example".toList || wordNumSearch t "examples".toList then 0.1 else 0)
          + (if wordNumSearch t "exercise".toList || wordNumSearch t "exercises".toList then 0.2 else 0)
          + (if trailBoundSearch t "practice".toList || trailBoundSearch t "practices".toList then 0.1 else 0)
          + (if trailBoundSearch t "tutorial".toList || trailBoundSearch t "tutorials".toList then 0.1 else 0)
          + (if trailBoundSearch t "workshop".toList || trailBoundSearch t "workshops".toList then 0.1 else 0)
          + (if handsOnSearch t then 0.2 else 0)
      else 0
    | none => 0
  min 1 s

/-- The weighted sum of `_rate_book`, weights in dict order. -/
def rateScore (b : BookA) : ℚ :=
  calcRecency b * 0.15 + calcComprehensiveness b * 0.25 + calcAuthority b * 0.2
    + calcTechnicalDepth b * 0.25 + calcPracticalValue b * 0.15

/-- Python banker's rounding of `10 q` to an integer. -/
def roundHalfEven (q : ℚ) : ℤ :=
  if q - ⌊q⌋ = 1 / 2 then (if 2 ∣ ⌊q⌋ then ⌊q⌋ else ⌊q⌋ + 1) else round q

/-- Python `round(q, 1)`. -/
def pyRound1 (q : ℚ) : ℚ := (roundHalfEven (q * 10) : ℚ) / 10

/-- `_rate_book` from src/core/analyzer.py:
`round(max(1.0, min(10.0, 6.0 + score * 2.0)), 1)`. -/
def rateBook (b : BookA) : ℚ :=
  pyRound1 (max 1 (min 10 (6 + rateScore b * 2)))

/-! ## `determine_topics` (src/core/analyzer.py, lines 271-376)

The topic pattern table is loaded from an external JSON file that is not
part of the sources (`_load_topic_patterns`), and its regexes are matched
by Python's `re` engine; both are modelled as parameters: a table mapping
topic → subtopic → pattern strings, and an engine giving `re.search` and
`len(re.findall ...)` for those pattern strings. -/

/-- The external regular-expression engine applied to the loaded pattern
strings: `search p text` models `re.search(p, text, re.I)` and
`countAll p text` models `len(re.findall(p, text, re.I))`. -/
structure RegexEngine where
  search : List Char → List Char → Bool
  countAll : List Char → List Char → Nat

/-- The loaded `topic_patterns` table: topic → subtopic → patterns. -/
abbrev PatTable : Type := List (String × List (String × List (List Char)))

/-- Score map keyed by (topic, subtopic) in defaultdict insertion order. -/
abbrev ScoreMap : Type := List ((String × String) × ℚ)

/-- `topic_scores[topic][subtopic] += v` on the insertion-ordered map. -/
def addScore (m : ScoreMap) (k : String × String) (v : ℚ) : ScoreMap :=
  if m.any (fun e => e.1 = k) then
    m.map (fun e => if e.1 = k then (e.1, e.2 + v) else e)
  else m ++ [(k, v)]

/-- A conditional signal pass: add weight `w` to every (topic, subtopic)
one of whose patterns matches the probed text (passes 1 and 2). -/
def passAny (eng : RegexEngine) (tbl : PatTable) (text : List Char) (w : ℚ)
    (m : ScoreMap) : ScoreMap :=
  tbl.foldl
    (fun m ts =>
      ts.2.foldl
        (fun m sp =>
          if sp.2.any (fun p => eng.search p text) then addScore m (ts.1, sp.1) w else m)
        m)
    m

/-- Case-insensitive literal prefix test (`re.I`). -/
def ciPrefix (pat : List Char) (l : List Char) : Bool :=
  pat.isPrefixOf (lowerStr (l.take pat.length))

/-- The lazy `.*?(?:chapter|section)` tail of the TOC regex (with `re.S`,
so the dot also matches newlines); returns the consumed span. -/
def tocTail : List Char → Option (List Char)
  | [] => none
  | l@(c :: cs) =>
    if ciPrefix "chapter".toList l then some (l.take 7)
    else if ciPrefix "section".toList l then some (l.take 7)
    else (tocTail cs).map (fun t => c :: t)

/-- `(?:contents|table of contents)` at the head, then the lazy tail. -/
def tocAt (l : List Char) : Option (List Char) :=
  if ciPrefix "contents".toList l then
    (tocTail (l.drop 8)).map (fun t => l.take 8 ++ t)
  else if ciPrefix "table of contents".toList l then
    (tocTail (l.drop 17)).map (fun t => l.take 17 ++ t)
  else none

/-- `re.search(r'(?:contents|table of contents).*?(?:chapter|section)',
content_sample, re.I | re.S)`, returning `match.group(0)`. -/
def findToc : List Char → Option (List Char)
  | [] => none
  | l@(_ :: cs) =>
    match tocAt l with
    | some t => some t
    | none => findToc cs

/-- The TOC pass (pass 3): per subtopic add 0.5 per matching pattern. -/
def passToc (eng : RegexEngine) (tbl : PatTable) (toc : List Char)
    (m : ScoreMap) : ScoreMap :=
  tbl.foldl
    (fun m ts =>
      ts.2.foldl
        (fun m sp =>
          addScore m (ts.1, sp.1) ((sp.2.countP (fun p => eng.search p toc) : ℚ) * 0.5))
        m)
    m

/-- The content pass (pass 4): per subtopic add 0.1 per `findall` hit. -/
def passContent (eng : RegexEngine) (tbl : PatTable) (sample : List Char)
    (m : ScoreMap) : ScoreMap :=
  tbl.foldl
    (fun m ts =>
      ts.2.foldl
        (fun m sp =>
          addScore m (ts.1, sp.1)
            (((sp.2.map (fun p => eng.countAll p sample)).sum : ℚ) * 0.1))
        m)
    m

/-- The `specific_patterns` table of `_determine_fallback_topic`. -/
def specificPatterns : List ((String × String) × List String) :=
  [(("Computer Science", "Algorithms"),
    ["problem solving", "computational thinking", "algorithmic thinking",
     "competitive programming"]),
   (("Computer Science", "Data Structures"),
    ["data organization", "data management", "memory organization"]),
   (("Computer Science", "Computer Architecture"),
    ["computer organization", "digital design", "computer system"])]

/-- `re.search` of a literal pattern with `re.I`. -/
def ciContains (text pat : List Char) : Bool :=
  containsSub (lowerStr text) (lowerStr pat)

/-- Python `s.split(sep)` for a one-character separator (keeps empties). -/
def splitChar (sep : Char) (acc : List Char) : List Char → List (List Char)
  | [] => [acc.reverse]
  | c :: cs =>
    if c = sep then acc.reverse :: splitChar sep [] cs
    else splitChar sep (c :: acc) cs

/-- `re.findall(r'\w+', s)`: maximal word-character runs. -/
def wordTokens (acc : List Char) : List Char → List (List Char)
  | [] => if acc.isEmpty then [] else [acc.reverse]
  | c :: cs =>
    if isWordChar c then wordTokens (c :: acc) cs
    else if acc.isEmpty then wordTokens [] cs
    else acc.reverse :: wordTokens [] cs

/-- `_determine_fallback_topic` from src/core/analyzer.py. -/
def fallbackTopic (b : BookA) : List (String × String) :=
  match specificPatterns.findSome?
      (fun kp => if kp.2.any (fun p => ciContains b.title p.toList) then some kp.1 else none) with
  | some k => [k]
  | none =>
    match (splitChar '/' [] (lowerStr b.path)).findSome?
        (fun part =>
          if containsSub part "algorithm".toList then
            some ("Computer Science", "Algorithms")
          else if containsSub part "data".toList && containsSub part "struct".toList then
            some ("Computer Science", "Data Structures")
          else if containsSub part "arch".toList || containsSub part "system".toList then
            some ("Computer Science", "Computer Architecture")
          else none) with
    | some k => [k]
    | none =>
      if (wordTokens [] (lowerStr b.title)).any
          (fun w => w = "algorithm".toList || w = "computational".toList) then
        [("Computer Science", "Algorithms")]
      else if (wordTokens [] (lowerStr b.title)).any
          (fun w => w = "data".toList || w = "structure".toList) then
        [("Computer Science", "Data Structures")]
      else [("Computer Science", "Theory")]

/-- The best-scoring entry selection of `determine_topics`
(`best_score` starts at 0, strict improvement only). -/
def bestScore (m : ScoreMap) : Option (String × String) × ℚ :=
  m.foldl
    (fun (best : Option (String × String) × ℚ) e =>
      if e.2 > best.2 then (some e.1, e.2) else best)
    (none, 0)

/-- Step 5 of `determine_topics`: the fallback when the best score is below
the threshold 1.0, else the single best pair. -/
def selectBest (m : ScoreMap) (b : BookA) : List (String × String) :=
  if (bestScore m).2 < 1 then fallbackTopic b
  else
    match (bestScore m).1 with
    | some p => [p]
    | none => fallbackTopic b

/-- `determine_topics` from src/core/analyzer.py. -/
def determineTopics (eng : RegexEngine) (tbl : PatTable) (b : BookA) :
    List (String × String) :=
  let m : ScoreMap := []
  let m := passAny eng tbl (lowerStr b.path) 2.0 m
  let m := passAny eng tbl (lowerStr b.title) 3.0 m
  let m :=
    match b.content with
    | some c =>
      if !c.isEmpty then
        -- `content[:int(len(content) * 0.2)]`; the float scale is modelled
        -- as the exact fifth of the length
        let sample := c.take (c.length / 5)
        let m :=
          match findToc sample with
          | some toc => passToc eng tbl toc m
          | none => m
        passContent eng tbl sample m
      else m
    | none => m
  selectBest m b

/-! ## Concrete records used in counterexamples and witnesses -/

/-- A record whose title and filename stem normalize differently, giving it
two signatures. -/
def bookTwoSigs : BookL :=
  ⟨"beta.pdf".toList, "alpha".toList, [], [], 1, 1, [], []⟩

/-- A record with complete metadata sharing `bookTwoSigs`' title signature. -/
def bookRicher : BookL :=
  ⟨"alpha.pdf".toList, "alpha".toList, "John Smith".toList, "2020".toList, 1, 1, [], []⟩

/-- A record with complete metadata sharing `bookTwoSigs`' stem signature. -/
def bookRicher2 : BookL :=
  ⟨"beta2.pdf".toList, "beta".toList, "Jane Doe".toList, "2021".toList, 1, 1, [], []⟩

/-- The record titled "the pragmatic programmer" of the spec's collision
test. -/
def pragBook1 : BookL :=
  ⟨"one.pdf".toList, "the pragmatic programmer".toList, [], [], 1000, 50, [], []⟩

/-- The record titled "pragmatic programmer" of the spec's collision test. -/
def pragBook2 : BookL :=
  ⟨"two.pdf".toList, "pragmatic programmer".toList, [], [], 1000, 50, [], []⟩

/-! ## Claims C7 and C8: concrete extraction and collision tests -/

/-- C7: for the filename "Clean Code - Robert Martin [2008]" both filename
extractors of library_organizer.py return title "Clean Code", author
"Robert Martin" and year 2008 (`_parse_filename` yields the fields of its
result dict, `extract_book_info` the (name, author, year) triple). -/
theorem claim7_clean_code_extraction :
    parseFilename "Clean Code - Robert Martin [2008]".toList =
      ⟨"Robert Martin".toList, "Clean Code".toList, "2008".toList⟩ ∧
    extractBookInfo "Clean Code - Robert Martin [2008]".toList =
      ("Clean Code".toList, "Robert Martin".toList, "2008".toList) := by
  decide

/-- C8: two records with size 1000 and 50 pages titled "the pragmatic
programmer" and "pragmatic programmer" collide into exactly one
DuplicateEdge: the normalizer strips the leading article, both yield the
signature (1000, 50, "pragmatic programmer"), and the first record (whose
title has more than two words) is kept. -/
theorem claim8_pragmatic_collision :
    findDuplicates [pragBook1, pragBook2] =
      [⟨"one.pdf".toList, "two.pdf".toList⟩] := by
  decide

/-! ## Claim C4: the difficulty algorithm -/

/-- A record whose title matches both the easy tier ("basic") and the hard
tier ("optimization"); its topic pair carries no complexity bonus and its
page count no adjustment. -/
def diffCexBook : BookA :=
  ⟨"x.pdf".toList, "basic optimization".toList, none, none, 300, 0,
   [("Web Development", "Frontend")], "", none, none⟩

/-- C4 counterexample: the claim's algorithm stops at the first matching
tier, so for the title "basic optimization" it scores −2 and returns
"easy"; the code scans every tier, adds −2 and +2, and returns
"moderate". -/
theorem claim4_counterexample :
    determineDifficultyClaim diffCexBook = "easy" ∧
    determineDifficulty diffCexBook = "moderate" ∧
    determineDifficulty diffCexBook ≠ determineDifficultyClaim diffCexBook := by
  have h1 : diffTierScoreFirstOnly (lowerStr diffCexBook.title) = -2 := by
    simp +decide [diffTierScoreFirstOnly, complexityTiers, List.findSome?]
  have h2 : diffTierScore (lowerStr diffCexBook.title) = 0 := by
    simp +decide only [diffTierScore, complexityTiers, List.foldl]
    norm_num
  have h3 : topicBonus diffCexBook.topics = 0 := by
    simp +decide [topicBonus, topicComplexity, diffCexBook, List.foldl]
  have h4 : pageAdj diffCexBook.page_count = 0 := by
    simp [pageAdj, diffCexBook]
  have hc : determineDifficultyClaim diffCexBook = "easy" := by
    unfold determineDifficultyClaim
    rw [h1, h3, h4]
    norm_num [difficultyFromScore]
  have hd : determineDifficulty diffCexBook = "moderate" := by
    unfold determineDifficulty diffScore
    rw [h2, h3, h4]
    norm_num [difficultyFromScore]
  refine ⟨hc, hd, ?_⟩
  rw [hc, hd]
  decide

/-- C4 (amended): `determine_difficulty` computes exactly: start at 0; add
the delta (−2, 0, +2, +4) of EVERY tier one of whose patterns matches the
lower-cased title (the `break` only stops the pattern scan within a tier);
add the topic-complexity bonus and the page-count adjustment; map the
total via the thresholds ≤−2 easy, ≤1 moderate, ≤3 hard, else extreme. -/
theorem claim4_difficulty_algorithm (b : BookA) :
    determineDifficulty b = determineDifficultyAmended b := by
  unfold determineDifficulty determineDifficultyAmended diffScore diffTierScore
    complexityTiers
  simp only [List.foldl]
  congr 1
  ring

/-! ## Claim C6: totality of topic classification -/

/-- The fallback ladder of `_determine_fallback_topic` returns exactly one
(topic, subtopic) pair on every record. -/
theorem fallbackTopic_length (b : BookA) : (fallbackTopic b).length = 1 := by
  unfold fallbackTopic
  repeat' split <;> try rfl

/-- The selection step always produces exactly one pair: either the single
best entry or the fallback. -/
theorem selectBest_length (m : ScoreMap) (b : BookA) :
    (selectBest m b).length = 1 := by
  unfold selectBest
  split
  · exact fallbackTopic_length b
  · split
    · rfl
    · exact fallbackTopic_length b

/-- C6: topic classification is total and never empty — for every engine,
every loaded pattern table and every record (including one with empty
title, empty content and an unmatched path) `determine_topics` returns a
non-empty list, and in fact always exactly one (topic, subtopic) pair. -/
theorem claim6_classification_total (eng : RegexEngine) (tbl : PatTable)
    (b : BookA) :
    determineTopics eng tbl b ≠ [] ∧ (determineTopics eng tbl b).length = 1 := by
  have h : (determineTopics eng tbl b).length = 1 := by
    unfold determineTopics
    exact selectBest_length _ b
  exact ⟨by intro hnil; rw [hnil] at h; exact absurd h (by decide), h⟩

/-! ## Claim C10: reading-time estimation -/

/-- Bridge between `math.ceil` on exact division and natural-number
ceiling division. -/
theorem toNat_ceil_div_nat (a b : ℕ) (hb : 0 < b) :
    Int.toNat ⌈(a : ℚ) / (b : ℚ)⌉ = (a + b - 1) / b := by
  have hbq : (0 : ℚ) < (b : ℚ) := by exact_mod_cast hb
  obtain ⟨m, hm, hdm⟩ : ∃ m, m < b ∧ (a + b - 1) = b * ((a + b - 1) / b) + m :=
    ⟨(a + b - 1) % b, Nat.mod_lt _ hb, (Nat.div_add_mod _ b).symm⟩
  set n := (a + b - 1) / b with hn
  have hdm' : a + (b - 1) = b * n + m := by omega
  have hQ : (a : ℚ) + ((b : ℚ) - 1) = (b : ℚ) * (n : ℚ) + (m : ℚ) := by
    have h := congrArg (Nat.cast : ℕ → ℚ) hdm'
    push_cast [Nat.cast_sub hb] at h
    linarith [h]
  have hmQ : (m : ℚ) + 1 ≤ (b : ℚ) := by exact_mod_cast hm
  have hm0 : (0 : ℚ) ≤ (m : ℚ) := Nat.cast_nonneg m
  have hceil : ⌈(a : ℚ) / (b : ℚ)⌉ = (n : ℤ) := by
    rw [Int.ceil_eq_iff]
    constructor
    · rcases Nat.eq_zero_or_pos n with h0 | hpos
      · rw [h0]
        have ha0 : (0 : ℚ) ≤ (a : ℚ) / (b : ℚ) :=
          div_nonneg (Nat.cast_nonneg a) (le_of_lt hbq)
        push_cast
        linarith
      · have hposQ : (1 : ℚ) ≤ (n : ℚ) := by exact_mod_cast hpos
        push_cast
        rw [lt_div_iff₀ hbq]
        have hexp : ((n : ℚ) - 1) * (b : ℚ) = (b : ℚ) * (n : ℚ) - (b : ℚ) := by ring
        rw [hexp]
        linarith
    · push_cast
      rw [div_le_iff₀ hbq]
      have hcomm : (n : ℚ) * (b : ℚ) = (b : ℚ) * (n : ℚ) := mul_comm _ _
      rw [hcomm]
      linarith
  rw [hceil]
  exact Int.toNat_natCast n

/-- C10: `estimate_reading_time` returns None exactly when the page count
is 0 (whatever the difficulty); for a positive page count and each of the
four difficulties it returns `ceil(page_count / pages_per_day)` — written
as natural ceiling division — with pages_per_day 30, 25, 20, 15
respectively, and that value is at least 1. -/
theorem claim10_reading_time (pc : Nat) (hpc : 0 < pc) :
    (∀ d : String, estimateReadingTime 0 d = .ok none) ∧
    estimateReadingTime pc "easy" = .ok (some ((pc + 30 - 1) / 30)) ∧
    estimateReadingTime pc "moderate" = .ok (some ((pc + 25 - 1) / 25)) ∧
    estimateReadingTime pc "hard" = .ok (some ((pc + 20 - 1) / 20)) ∧
    estimateReadingTime pc "extreme" = .ok (some ((pc + 15 - 1) / 15)) ∧
    1 ≤ (pc + 30 - 1) / 30 ∧ 1 ≤ (pc + 25 - 1) / 25 ∧
    1 ≤ (pc + 20 - 1) / 20 ∧ 1 ≤ (pc + 15 - 1) / 15 := by
  have hne : ¬(pc = 0) := Nat.pos_iff_ne_zero.mp hpc
  have key : ∀ (s : Nat) (d : String), 0 < s → readingSpeeds.lookup d = some s →
      estimateReadingTime pc d = .ok (some ((pc + s - 1) / s)) := by
    intro s d hs hl
    unfold estimateReadingTime
    rw [if_neg hne, hl]
    simp only [toNat_ceil_div_nat pc s hs]
  refine ⟨fun d => rfl, ?_, ?_, ?_, ?_, ?_, ?_, ?_, ?_⟩
  · exact key 30 "easy" (by norm_num) (by decide)
  · exact key 25 "moderate" (by norm_num) (by decide)
  · exact key 20 "hard" (by norm_num) (by decide)
  · exact key 15 "extreme" (by norm_num) (by decide)
  · rw [Nat.le_div_iff_mul_le (by norm_num)]; omega
  · rw [Nat.le_div_iff_mul_le (by norm_num)]; omega
  · rw [Nat.le_div_iff_mul_le (by norm_num)]; omega
  · rw [Nat.le_div_iff_mul_le (by norm_num)]; omega

/-- C10 witness: a 100-page book takes ceil(100/20) = 5 days at "hard"
difficulty, and a 0-page book has no estimate. -/
theorem claim10_reading_time_witness :
    0 < 100 ∧ estimateReadingTime 100 "hard" = .ok (some 5) ∧
    estimateReadingTime 0 "easy" = .ok none := by
  have h := claim10_reading_time 100 (by norm_num)
  exact ⟨by norm_num, h.2.2.2.1, h.1 "easy"⟩

/-! ## Claim C1: rating and difficulty ranges -/

/-- Banker's rounding never goes below an integer lower bound. -/
theorem roundHalfEven_ge (x : ℚ) (a : ℤ) (h : (a : ℚ) ≤ x) :
    a ≤ roundHalfEven x := by
  unfold roundHalfEven
  have hfl : a ≤ ⌊x⌋ := Int.le_floor.mpr h
  split
  · split
    · exact hfl
    · omega
  · rw [round_eq]
    exact Int.le_floor.mpr (by linarith)

/-- Banker's rounding never goes above an integer upper bound. -/
theorem roundHalfEven_le (x : ℚ) (b : ℤ) (h : x ≤ b) :
    roundHalfEven x ≤ b := by
  unfold roundHalfEven
  split
  · rename_i ht
    have hx : (⌊x⌋ : ℚ) + 1 / 2 = x := by linarith
    have hlt : ⌊x⌋ < b := by
      have : (⌊x⌋ : ℚ) < (b : ℚ) := by linarith
      exact_mod_cast this
    split
    · omega
    · omega
  · rw [round_eq]
    have h1 : ⌊x + 1 / 2⌋ ≤ ⌊(b : ℚ) + 1 / 2⌋ := Int.floor_le_floor (by linarith)
    have h2 : ⌊(b : ℚ) + 1 / 2⌋ = b := by
      rw [add_comm, Int.floor_add_int]
      norm_num
    omega

/-- `round(q, 1)` stays inside an interval with integer-tenth endpoints. -/
theorem pyRound1_bounds (q : ℚ) (h1 : 1 ≤ q) (h2 : q ≤ 10) :
    1 ≤ pyRound1 q ∧ pyRound1 q ≤ 10 := by
  unfold pyRound1
  have hge : (10 : ℤ) ≤ roundHalfEven (q * 10) :=
    roundHalfEven_ge (q * 10) 10 (by push_cast; linarith)
  have hle : roundHalfEven (q * 10) ≤ (100 : ℤ) :=
    roundHalfEven_le (q * 10) 100 (by push_cast; linarith)
  constructor
  · rw [le_div_iff₀ (by norm_num : (0 : ℚ) < 10)]
    have : (10 : ℚ) ≤ (roundHalfEven (q * 10) : ℚ) := by exact_mod_cast hge
    linarith
  · rw [div_le_iff₀ (by norm_num : (0 : ℚ) < 10)]
    have : ((roundHalfEven (q * 10) : ℚ)) ≤ 100 := by exact_mod_cast hle
    linarith

/-- C1: for every record — whatever its title, author, year, page count,
content, publisher, stored difficulty or topics — `_rate_book` returns a
rating in [1, 10] and `determine_difficulty` returns one of easy, moderate,
hard, extreme. -/
theorem claim1_rating_and_difficulty_ranges (b : BookA) :
    (1 ≤ rateBook b ∧ rateBook b ≤ 10) ∧
    determineDifficulty b ∈ ["easy", "moderate", "hard", "extreme"] := by
  constructor
  · unfold rateBook
    exact pyRound1_bounds _ (le_max_left _ _)
      (max_le (by norm_num) (min_le_left _ _))
  · unfold determineDifficulty difficultyFromScore
    split_ifs <;> simp

/-! ## Claim C5: signature repointing when the incoming record wins -/

/-- The resolver state after processing `bookTwoSigs` alone. -/
def seenAfterFirst : SeenMap × List DupEdge := stepBook (emptySeen, []) bookTwoSigs

/-- C5 counterexample: `bookRicher` arrives, matches `bookTwoSigs` via the
signature (1, 1, "alpha") and wins the completeness comparison, yet the
other signature (1, 1, "beta") of the old keeper still maps to the old
keeper afterwards — the loop only repoints the incoming record's own
signatures. -/
theorem claim5_counterexample :
    findMatch seenAfterFirst.1 (signatures bookRicher) =
      some ((1, 1, "alpha".toList), bookTwoSigs) ∧
    metaScore bookTwoSigs < metaScore bookRicher ∧
    lookupSeen seenAfterFirst.1 (1, 1, "beta".toList) = some bookTwoSigs ∧
    lookupSeen (stepBook seenAfterFirst bookRicher).1 (1, 1, "beta".toList) =
      some bookTwoSigs ∧
    bookTwoSigs ≠ bookRicher := by
  decide

theorem lookupSeen_insertAllSigs (m : SeenMap) (sigs : List Sig) (b : BookL)
    (s : Sig) :
    lookupSeen (insertAllSigs m sigs b) s =
      if s ∈ sigs then some b else lookupSeen m s := by
  induction sigs generalizing m with
  | nil => simp [insertAllSigs]
  | cons x xs ih =>
    show lookupSeen (insertAllSigs ((x, b) :: m) xs b) s = _
    rw [ih]
    by_cases hx : s ∈ xs
    · rw [if_pos hx, if_pos (List.mem_cons_of_mem x hx)]
    · by_cases hsx : x = s
      · rw [if_neg hx, if_pos (by rw [hsx]; exact List.mem_cons_self s xs)]
        rw [show lookupSeen ((x, b) :: m) s =
          (if x = s then some b else lookupSeen m s) from rfl, if_pos hsx]
      · have hmem : s ∉ x :: xs := by
          rw [List.mem_cons]
          rintro (h | h)
          · exact hsx h.symm
          · exact hx h
        rw [if_neg hx, if_neg hmem]
        rw [show lookupSeen ((x, b) :: m) s =
          (if x = s then some b else lookupSeen m s) from rfl, if_neg hsx]

/-- C5 (amended): when the incoming record wins the completeness
comparison, every signature OF THE INCOMING RECORD (including the matched
one) is repointed to it, and every other signature — in particular any
further signature of the old keeper — is left unchanged. -/
theorem claim5_amended_repointing (st : SeenMap × List DupEdge) (b : BookL)
    (s : Sig) (mb : BookL)
    (hm : findMatch st.1 (signatures b) = some (s, mb))
    (hw : metaScore mb < metaScore b) :
    (∀ s' ∈ signatures b, lookupSeen (stepBook st b).1 s' = some b) ∧
    (∀ s', s' ∉ signatures b →
      lookupSeen (stepBook st b).1 s' = lookupSeen st.1 s') := by
  unfold stepBook
  rw [hm]
  dsimp only
  rw [if_pos hw]
  constructor
  · intro s' hs'
    rw [lookupSeen_insertAllSigs, if_pos hs']
  · intro s' hs'
    rw [lookupSeen_insertAllSigs, if_neg hs']

/-- C5 (amended) witness: in the concrete counterexample state, the
matched signature (1, 1, "alpha") is repointed to the incoming record. -/
theorem claim5_amended_repointing_witness :
    lookupSeen (stepBook seenAfterFirst bookRicher).1
      ((1, 1, "alpha".toList) : Sig) = some bookRicher :=
  (claim5_amended_repointing seenAfterFirst bookRicher
      ((1, 1, "alpha".toList) : Sig) bookTwoSigs (by decide) (by decide)).1
    _ (by decide)

/-! ## Claim C2: the duplicate-edge guarantees -/

/-- C2 counterexample: three records with pairwise-distinct paths for which
duplicate resolution marks "beta.pdf" as `duplicate_path` twice — it loses
its title signature to `bookRicher`, stays registered under its stem
signature, and loses again to `bookRicher2`. -/
theorem claim2_counterexample :
    ([bookTwoSigs, bookRicher, bookRicher2].map BookL.path).Nodup ∧
    ((findDuplicates [bookTwoSigs, bookRicher, bookRicher2]).map
        DupEdge.duplicate_path).count "beta.pdf".toList = 2 := by
  decide

theorem mem_insertAllSigs (m : SeenMap) (sigs : List Sig) (b : BookL)
    (e : Sig × BookL) (he : e ∈ insertAllSigs m sigs b) :
    e.2 = b ∨ e ∈ m := by
  induction sigs generalizing m with
  | nil => exact Or.inr he
  | cons x xs ih =>
    rcases ih ((x, b) :: m) he with h | h
    · exact Or.inl h
    · rcases List.mem_cons.mp h with h | h
      · exact Or.inl (by rw [h])
      · exact Or.inr h

theorem lookupSeen_mem (m : SeenMap) (s : Sig) (b : BookL)
    (h : lookupSeen m s = some b) : ∃ s', (s', b) ∈ m := by
  induction m with
  | nil => exact absurd h (by simp [lookupSeen])
  | cons e m ih =>
    obtain ⟨s', b'⟩ := e
    rw [show lookupSeen ((s', b') :: m) s =
        (if s' = s then some b' else lookupSeen m s) from rfl] at h
    split at h
    · have hb := Option.some.inj h
      subst hb
      exact ⟨s', List.mem_cons_self _ _⟩
    · obtain ⟨s'', hmem⟩ := ih h
      exact ⟨s'', List.mem_cons_of_mem _ hmem⟩

theorem findMatch_mem (m : SeenMap) (sigs : List Sig) (s : Sig) (mb : BookL)
    (h : findMatch m sigs = some (s, mb)) : ∃ s', (s', mb) ∈ m := by
  induction sigs with
  | nil => exact absurd h (by simp [findMatch])
  | cons x xs ih =>
    rw [show findMatch m (x :: xs) =
        (match lookupSeen m x with
         | some b => some (x, b)
         | none => findMatch m xs) from rfl] at h
    rcases hl : lookupSeen m x with _ | b'
    · rw [hl] at h
      exact ih h
    · rw [hl] at h
      have hpair : x = s ∧ b' = mb := by
        have := Option.some.inj h
        exact ⟨congrArg Prod.fst this, congrArg Prod.snd this⟩
      rcases hpair with ⟨h1, h2⟩
      subst h1
      subst h2
      exact lookupSeen_mem m x b' hl

/-- Fold invariant for the no-self-edge guarantee: map values point to
already-processed paths, remaining paths are fresh, and accumulated edges
are never self-loops. -/
theorem findDuplicates_aux_no_self (books : List BookL)
    (st : SeenMap × List DupEdge) (done : List (List Char))
    (hmap : ∀ e ∈ (st.1 : List (Sig × BookL)), e.2.path ∈ done)
    (hedges : ∀ e ∈ st.2, e.original_path ≠ e.duplicate_path)
    (hdisj : ∀ b ∈ books, b.path ∉ done)
    (hnd : (books.map BookL.path).Nodup) :
    ∀ e ∈ (books.foldl stepBook st).2, e.original_path ≠ e.duplicate_path := by
  induction books generalizing st done with
  | nil => simpa using hedges
  | cons b rest ih =>
    simp only [List.foldl_cons]
    have hbdone : b.path ∉ done := hdisj b (List.mem_cons_self b rest)
    have hmb_ne : ∀ mb : BookL, (∃ s', ((s', mb) : Sig × BookL) ∈ st.1) →
        mb.path ≠ b.path := by
      rintro mb ⟨s', hmem⟩ heq
      exact hbdone (heq ▸ hmap (s', mb) hmem)
    apply ih (stepBook st b) (b.path :: done)
    · intro e he
      unfold stepBook at he
      rcases hfm : findMatch st.1 (signatures b) with _ | ⟨s, mb⟩ <;>
        rw [hfm] at he <;> dsimp only at he
      · rcases mem_insertAllSigs st.1 (signatures b) b e he with h | h
        · exact h ▸ List.mem_cons_self _ _
        · exact List.mem_cons_of_mem _ (hmap e h)
      · by_cases hsc : metaScore b > metaScore mb
        · rw [if_pos hsc] at he
          dsimp only at he
          rcases mem_insertAllSigs st.1 (signatures b) b e he with h | h
          · exact h ▸ List.mem_cons_self _ _
          · exact List.mem_cons_of_mem _ (hmap e h)
        · rw [if_neg hsc] at he
          dsimp only at he
          exact List.mem_cons_of_mem _ (hmap e he)
    · intro e he
      unfold stepBook at he
      rcases hfm : findMatch st.1 (signatures b) with _ | ⟨s, mb⟩ <;>
        rw [hfm] at he <;> dsimp only at he
      · exact hedges e he
      · have hne : mb.path ≠ b.path :=
          hmb_ne mb (findMatch_mem st.1 (signatures b) s mb hfm)
        by_cases hsc : metaScore b > metaScore mb
        · rw [if_pos hsc] at he
          dsimp only at he
          rcases List.mem_append.mp he with h | h
          · exact hedges e h
          · simp only [List.mem_singleton] at h
            subst h
            exact fun hc => hne hc.symm
        · rw [if_neg hsc] at he
          dsimp only at he
          rcases List.mem_append.mp he with h | h
          · exact hedges e h
          · simp only [List.mem_singleton] at h
            subst h
            exact hne
    · intro b' hb' hmem
      rcases List.mem_cons.mp hmem with h | h
      · rw [List.map_cons, List.nodup_cons] at hnd
        exact hnd.1 (h ▸ List.mem_map_of_mem BookL.path hb')
      · exact hdisj b' (List.mem_cons_of_mem _ hb') h
    · rw [List.map_cons, List.nodup_cons] at hnd
      exact hnd.2

theorem findDuplicates_no_self_edge (books : List BookL)
    (hnd : (books.map BookL.path).Nodup) :
    ∀ e ∈ findDuplicates books, e.original_path ≠ e.duplicate_path := by
  apply findDuplicates_aux_no_self books (emptySeen, []) []
  · intro e he
    exact absurd he (by simp [emptySeen])
  · intro e he
    exact absurd he (by simp)
  · intro b _ hmem
    exact absurd hmem (by simp)
  · exact hnd

/-- The entry found by a lookup carries the looked-up key. -/
theorem lookupSeen_mem_self (m : SeenMap) (s : Sig) (b : BookL)
    (h : lookupSeen m s = some b) : (s, b) ∈ m := by
  induction m with
  | nil => exact absurd h (by simp [lookupSeen])
  | cons e m ih =>
    obtain ⟨s', b'⟩ := e
    rw [show lookupSeen ((s', b') :: m) s =
        (if s' = s then some b' else lookupSeen m s) from rfl] at h
    split at h
    · rename_i hk
      have hb := Option.some.inj h
      subst hb
      subst hk
      exact List.mem_cons_self _ _
    · exact List.mem_cons_of_mem _ (ih h)

/-- Entries of `insertAllSigs` are either new entries keyed by one of the
inserted signatures or entries of the old map. -/
theorem mem_insertAllSigs_key (m : SeenMap) (sigs : List Sig) (b : BookL)
    (e : Sig × BookL) (he : e ∈ insertAllSigs m sigs b) :
    (e.2 = b ∧ e.1 ∈ sigs) ∨ e ∈ m := by
  induction sigs generalizing m with
  | nil => exact Or.inr he
  | cons x xs ih =>
    rcases ih ((x, b) :: m) he with ⟨h1, h2⟩ | h
    · exact Or.inl ⟨h1, List.mem_cons_of_mem x h2⟩
    · rcases List.mem_cons.mp h with h | h
      · exact Or.inl ⟨by rw [h], by rw [h]; exact List.mem_cons_self x xs⟩
      · exact Or.inr h

/-- Fold invariant for the at-most-once guarantee under the
single-signature condition: every stored entry's key is a signature of the
stored record, stored records and duplicate paths come from processed
records, reachable records are never already discarded, and the discarded
paths stay pairwise distinct. -/
theorem findDuplicates_aux_nodup (books : List BookL)
    (st : SeenMap × List DupEdge) (doneB : List BookL)
    (hsig : ∀ b ∈ doneB ++ books, ∃ s, signatures b = [s])
    (hI1 : ∀ e ∈ (st.1 : List (Sig × BookL)), e.2 ∈ doneB ∧ e.1 ∈ signatures e.2)
    (hI2 : ∀ e ∈ st.2, e.duplicate_path ∈ doneB.map BookL.path)
    (hI3 : (st.2.map DupEdge.duplicate_path).Nodup)
    (hI4 : ∀ s v, lookupSeen st.1 s = some v →
      v.path ∉ st.2.map DupEdge.duplicate_path)
    (hI5a : (doneB.map BookL.path).Nodup)
    (hI5b : (books.map BookL.path).Nodup)
    (hI5c : ∀ b ∈ books, b.path ∉ doneB.map BookL.path) :
    (((books.foldl stepBook st).2).map DupEdge.duplicate_path).Nodup := by
  induction books generalizing st doneB with
  | nil => simpa using hI3
  | cons b rest ih =>
    simp only [List.foldl_cons]
    obtain ⟨sb, hsb⟩ := hsig b (by simp)
    have hbpath : b.path ∉ doneB.map BookL.path := hI5c b (List.mem_cons_self b rest)
    have hdup_done : ∀ p, p ∈ st.2.map DupEdge.duplicate_path →
        p ∈ doneB.map BookL.path := by
      intro p hp
      obtain ⟨e, he, hep⟩ := List.mem_map.mp hp
      exact hep ▸ hI2 e he
    have hrest_nodup : (rest.map BookL.path).Nodup := by
      rw [List.map_cons, List.nodup_cons] at hI5b
      exact hI5b.2
    have hb_not_rest : b.path ∉ rest.map BookL.path := by
      rw [List.map_cons, List.nodup_cons] at hI5b
      exact hI5b.1
    have hsig' : ∀ b' ∈ (doneB ++ [b]) ++ rest, ∃ s, signatures b' = [s] := by
      intro b' hb'
      apply hsig
      simp only [List.append_assoc, List.mem_append, List.mem_cons,
        List.mem_singleton] at hb' ⊢
      tauto
    have hI5a' : ((doneB ++ [b]).map BookL.path).Nodup := by
      rw [List.map_append]
      apply List.Nodup.append hI5a (by simp)
      intro p hp hp'
      simp only [List.map_cons, List.map_nil, List.mem_singleton] at hp'
      exact hbpath (hp' ▸ hp)
    have hI5c' : ∀ b' ∈ rest, b'.path ∉ (doneB ++ [b]).map BookL.path := by
      intro b' hb' hmem
      rw [List.map_append, List.mem_append] at hmem
      rcases hmem with h | h
      · exact hI5c b' (List.mem_cons_of_mem b hb') h
      · simp only [List.map_cons, List.map_nil, List.mem_singleton] at h
        exact hb_not_rest (h ▸ List.mem_map_of_mem BookL.path hb')
    have hI1ins : ∀ e ∈ insertAllSigs st.1 (signatures b) b,
        e.2 ∈ doneB ++ [b] ∧ e.1 ∈ signatures e.2 := by
      intro e he
      rcases mem_insertAllSigs_key st.1 (signatures b) b e he with ⟨h1, h2⟩ | h
      · exact ⟨List.mem_append_right _ (by simp [h1]), h1 ▸ h2⟩
      · obtain ⟨h1, h2⟩ := hI1 e h
        exact ⟨List.mem_append_left _ h1, h2⟩
    have hfm : findMatch st.1 (signatures b) =
        (match lookupSeen st.1 sb with
         | some mb => some (sb, mb)
         | none => none) := by
      rw [hsb]
      rfl
    rcases hl : lookupSeen st.1 sb with _ | mb
    · -- no match: register the record
      have hstep : stepBook st b = (insertAllSigs st.1 (signatures b) b, st.2) := by
        unfold stepBook
        rw [hfm, hl]
      rw [hstep]
      apply ih (insertAllSigs st.1 (signatures b) b, st.2) (doneB ++ [b]) hsig'
        hI1ins
      · intro e he
        rw [List.map_append]
        exact List.mem_append_left _ (hI2 e he)
      · exact hI3
      · intro s v hv
        rw [show (insertAllSigs st.1 (signatures b) b, st.2).1 =
            insertAllSigs st.1 (signatures b) b from rfl,
          lookupSeen_insertAllSigs] at hv
        split at hv
        · have hb := Option.some.inj hv
          subst hb
          intro hmem
          exact hbpath (hdup_done _ hmem)
        · exact hI4 s v hv
      · exact hI5a'
      · exact hrest_nodup
      · exact hI5c'
    · -- match found: the keeper's only signature is the matched one
      have hmem_entry : (sb, mb) ∈ (st.1 : List (Sig × BookL)) :=
        lookupSeen_mem_self st.1 sb mb hl
      obtain ⟨hmb_done, hmb_sig⟩ := hI1 (sb, mb) hmem_entry
      have hmb_single : signatures mb = [sb] := by
        obtain ⟨smb, hsmb⟩ := hsig mb (List.mem_append_left _ hmb_done)
        rw [hsmb] at hmb_sig ⊢
        simp only [List.mem_singleton] at hmb_sig
        rw [hmb_sig]
      have hmb_not_dup : mb.path ∉ st.2.map DupEdge.duplicate_path := hI4 sb mb hl
      have hmb_ne_b : mb.path ≠ b.path := by
        intro hc
        exact hbpath (hc ▸ List.mem_map_of_mem BookL.path hmb_done)
      by_cases hsc : metaScore b > metaScore mb
      · -- incoming record wins
        have hstep : stepBook st b =
            (insertAllSigs st.1 (signatures b) b,
              st.2 ++ [⟨b.path, mb.path⟩]) := by
          unfold stepBook
          rw [hfm, hl]
          dsimp only
          rw [if_pos hsc]
        rw [hstep]
        apply ih _ (doneB ++ [b]) hsig' hI1ins
        · intro e he
          rw [List.map_append]
          rcases List.mem_append.mp he with h | h
          · exact List.mem_append_left _ (hI2 e h)
          · simp only [List.mem_singleton] at h
            subst h
            exact List.mem_append_left _ (List.mem_map_of_mem BookL.path hmb_done)
        · rw [List.map_append]
          apply List.Nodup.append hI3 (by simp)
          intro p hp hp'
          simp only [List.map_cons, List.map_nil, List.mem_singleton] at hp'
          subst hp'
          exact hmb_not_dup hp
        · intro s v hv
          rw [show (insertAllSigs st.1 (signatures b) b,
              st.2 ++ [⟨b.path, mb.path⟩]).1 =
              insertAllSigs st.1 (signatures b) b from rfl,
            lookupSeen_insertAllSigs] at hv
          rw [show (insertAllSigs st.1 (signatures b) b,
              st.2 ++ [(⟨b.path, mb.path⟩ : DupEdge)]).2 =
              st.2 ++ [⟨b.path, mb.path⟩] from rfl, List.map_append]
          split at hv
          · have hb := Option.some.inj hv
            subst hb
            intro hmem
            rcases List.mem_append.mp hmem with h | h
            · exact hbpath (hdup_done _ h)
            · simp only [List.map_cons, List.map_nil, List.mem_singleton] at h
              exact hmb_ne_b h.symm
          · rename_i hks
            intro hmem
            rcases List.mem_append.mp hmem with h | h
            · exact hI4 s v hv h
            · simp only [List.map_cons, List.map_nil, List.mem_singleton] at h
              have hv_entry := lookupSeen_mem_self st.1 s v hv
              obtain ⟨hv_done, hv_sig⟩ := hI1 (s, v) hv_entry
              have hveq : v = mb :=
                List.inj_on_of_nodup_map hI5a hv_done hmb_done (h.trans rfl)
              subst hveq
              rw [hmb_single] at hv_sig
              simp only [List.mem_singleton] at hv_sig
              rw [hsb] at hks
              exact hks (by simp [hv_sig])
        · exact hI5a'
        · exact hrest_nodup
        · exact hI5c'
      · -- the stored keeper wins
        have hstep : stepBook st b = (st.1, st.2 ++ [⟨mb.path, b.path⟩]) := by
          unfold stepBook
          rw [hfm, hl]
          dsimp only
          rw [if_neg hsc]
        rw [hstep]
        apply ih _ (doneB ++ [b]) hsig'
        · intro e he
          obtain ⟨h1, h2⟩ := hI1 e he
          exact ⟨List.mem_append_left _ h1, h2⟩
        · intro e he
          rw [List.map_append]
          rcases List.mem_append.mp he with h | h
          · exact List.mem_append_left _ (hI2 e h)
          · simp only [List.mem_singleton] at h
            subst h
            refine List.mem_append_right _ ?_
            simp
        · rw [List.map_append]
          apply List.Nodup.append hI3 (by simp)
          intro p hp hp'
          simp only [List.map_cons, List.map_nil, List.mem_singleton] at hp'
          subst hp'
          exact hbpath (hdup_done _ hp)
        · intro s v hv
          rw [show (st.1, st.2 ++ [(⟨mb.path, b.path⟩ : DupEdge)]).2 =
              st.2 ++ [⟨mb.path, b.path⟩] from rfl, List.map_append]
          intro hmem
          rcases List.mem_append.mp hmem with h | h
          · exact hI4 s v hv h
          · simp only [List.map_cons, List.map_nil, List.mem_singleton] at h
            have hv_entry := lookupSeen_mem_self st.1 s v hv
            obtain ⟨hv_done, _⟩ := hI1 (s, v) hv_entry
            exact hbpath (h ▸ List.mem_map_of_mem BookL.path hv_done)
        · exact hI5a'
        · exact hrest_nodup
        · exact hI5c'

/-- C2 (amended): for every input list of records with pairwise-distinct
paths, no edge produced by `_find_duplicates` has `original_path` equal to
`duplicate_path`; and when every record carries a single signature (all
its name variants normalize identically), no path occurs as
`duplicate_path` in more than one edge.  The unconditional at-most-once
half of the claim fails because a record with several signatures can be
superseded as keeper on one of them and then matched — and discarded
again — through another. -/
theorem claim2_amended_no_self_edge (books : List BookL)
    (hnd : (books.map BookL.path).Nodup) :
    (∀ e ∈ findDuplicates books, e.original_path ≠ e.duplicate_path) ∧
    ((∀ b ∈ books, ∃ s, signatures b = [s]) →
      ((findDuplicates books).map DupEdge.duplicate_path).Nodup) := by
  constructor
  · exact findDuplicates_no_self_edge books hnd
  · intro hsig
    apply findDuplicates_aux_nodup books (emptySeen, []) []
    · intro b hb
      exact hsig b (by simpa using hb)
    · intro e he
      exact absurd he (by simp [emptySeen])
    · intro e he
      exact absurd he (by simp)
    · simp
    · intro s v hv
      exact absurd hv (by simp [emptySeen, lookupSeen])
    · simp
    · exact hnd
    · intro b _ hmem
      exact absurd hmem (by simp)

/-- C2 (amended) witness: on the three-record counterexample list the
distinct-path hypothesis holds and the first produced edge is not a
self-loop. -/
theorem claim2_amended_no_self_edge_witness :
    ([bookTwoSigs, bookRicher, bookRicher2].map BookL.path).Nodup ∧
    (⟨"alpha.pdf".toList, "beta.pdf".toList⟩ : DupEdge).original_path ≠
      (⟨"alpha.pdf".toList, "beta.pdf".toList⟩ : DupEdge).duplicate_path := by
  refine ⟨by decide, ?_⟩
  exact (claim2_amended_no_self_edge [bookTwoSigs, bookRicher, bookRicher2]
    (by decide)).1 ⟨"alpha.pdf".toList, "beta.pdf".toList⟩ (by decide)

/-! ## Character-level facts for the normalizer invariants -/

theorem char_toNat_inj (c d : Char) (h : c.toNat = d.toNat) : c = d := by
  apply Char.ext
  apply UInt32.ext
  exact h

theorem char_toNat_ofNat (n : ℕ) (h : n.isValidChar) : (Char.ofNat n).toNat = n := by
  simp [Char.ofNat, h, Char.toNat, Char.ofNatAux]
  rfl

theorem isAsciiUpper_iff (c : Char) :
    isAsciiUpper c = true ↔ 65 ≤ c.toNat ∧ c.toNat ≤ 90 := by
  unfold isAsciiUpper
  rw [Bool.and_eq_true, decide_eq_true_eq, decide_eq_true_eq]
  exact Iff.rfl

/-- Lower-casing an upper-case ASCII letter yields a character out of the
upper-case range. -/
theorem isAsciiUpper_lowerChar (c : Char) : isAsciiUpper (lowerChar c) = false := by
  unfold lowerChar
  split
  · rename_i h
    obtain ⟨h1, h2⟩ := (isAsciiUpper_iff c).mp h
    have hv : (c.toNat + 32).isValidChar := by
      left
      omega
    rw [Bool.eq_false_iff]
    intro hc
    obtain ⟨h3, h4⟩ := (isAsciiUpper_iff _).mp hc
    rw [char_toNat_ofNat _ hv] at h4
    omega
  · rename_i h
    exact Bool.not_eq_true _ ▸ h

theorem lowerChar_lowerChar (c : Char) : lowerChar (lowerChar c) = lowerChar c := by
  rw [show lowerChar (lowerChar c) =
    (if isAsciiUpper (lowerChar c) then Char.ofNat ((lowerChar c).toNat + 32)
     else lowerChar c) from rfl]
  rw [isAsciiUpper_lowerChar c]
  simp

theorem lowerChar_space : lowerChar ' ' = ' ' := by decide

/-- A character fixed by lower-casing is not upper case. -/
theorem isAsciiUpper_of_lowerChar_fix (c : Char) (h : lowerChar c = c) :
    isAsciiUpper c = false := by
  have := isAsciiUpper_lowerChar c
  rw [h] at this
  exact this

theorem word_not_open (c : Char) (h : isWordChar c = true) :
    isOpenBracket c = false := by
  unfold isOpenBracket
  rw [Bool.or_eq_false_iff]
  constructor <;> (apply decide_eq_false; intro hc; subst hc; exact absurd h (by decide))

theorem normalizeBookName_eq (y : List Char) :
    normalizeBookName y =
      if y.isEmpty then []
      else pyStrip (stripSuffixes (collapseRuns (removeSpecial (removeBrackets
        (stripPrefixes (lowerStr y)))))) := rfl

/-! ## Membership flow through the normalizer stages -/

theorem sublist_foldl_stripOnePrefix (ps : List String) (l : List Char) :
    (ps.foldl (fun acc p => stripOnePrefix p.toList acc) l).Sublist l := by
  induction ps generalizing l with
  | nil => exact List.Sublist.refl l
  | cons p ps ih =>
    refine (ih (stripOnePrefix p.toList l)).trans ?_
    unfold stripOnePrefix
    split
    · exact List.drop_sublist _ l
    · exact List.Sublist.refl l

theorem mem_stripPrefixes (c : Char) (l : List Char) (h : c ∈ stripPrefixes l) :
    c ∈ l :=
  (sublist_foldl_stripOnePrefix _ l).mem h

theorem mem_removeBracketsGo (c : Char) :
    ∀ (st : Option (List Char)) (l : List Char), c ∈ removeBracketsGo st l →
      c ∈ (match st with | some buf => buf | none => ([] : List Char)) ∨ c ∈ l := by
  intro st l
  induction l generalizing st with
  | nil =>
    intro h
    cases st with
    | none => exact absurd h (by simp [removeBracketsGo])
    | some buf =>
      rw [show removeBracketsGo (some buf) [] = buf.reverse from rfl] at h
      exact Or.inl (List.mem_reverse.mp h)
  | cons d ds ih =>
    intro h
    cases st with
    | none =>
      rw [show removeBracketsGo none (d :: ds) =
          (if isOpenBracket d then removeBracketsGo (some [d]) ds
           else d :: removeBracketsGo none ds) from rfl] at h
      split at h
      · rcases ih (some [d]) h with hb | hl
        · simp only [List.mem_singleton] at hb
          exact Or.inr (hb ▸ List.mem_cons_self d ds)
        · exact Or.inr (List.mem_cons_of_mem d hl)
      · rcases List.mem_cons.mp h with hc | hc
        · exact Or.inr (hc ▸ List.mem_cons_self d ds)
        · rcases ih none hc with hb | hl
          · exact absurd hb (by simp)
          · exact Or.inr (List.mem_cons_of_mem d hl)
    | some buf =>
      rw [show removeBracketsGo (some buf) (d :: ds) =
          (if isCloseBracket d then removeBracketsGo none ds
           else if d = '\n' then buf.reverse ++ '\n' :: removeBracketsGo none ds
           else removeBracketsGo (some (d :: buf)) ds) from rfl] at h
      split at h
      · rcases ih none h with hb | hl
        · exact absurd hb (by simp)
        · exact Or.inr (List.mem_cons_of_mem d hl)
      · split at h
        · rename_i hnl
          rcases List.mem_append.mp h with hb | hc
          · exact Or.inl (List.mem_reverse.mp hb)
          · rcases List.mem_cons.mp hc with hc | hc
            · exact Or.inr (by rw [hc, hnl]; exact List.mem_cons_self _ _)
            · rcases ih none hc with hb | hl
              · exact absurd hb (by simp)
              · exact Or.inr (List.mem_cons_of_mem d hl)
        · rcases ih (some (d :: buf)) h with hb | hl
          · rcases List.mem_cons.mp hb with hc | hc
            · exact Or.inr (hc ▸ List.mem_cons_self d ds)
            · exact Or.inl hc
          · exact Or.inr (List.mem_cons_of_mem d hl)

theorem mem_removeBrackets (c : Char) (l : List Char) (h : c ∈ removeBrackets l) :
    c ∈ l := by
  rcases mem_removeBracketsGo c none l h with hb | hl
  · exact absurd hb (by simp)
  · exact hl

/-- Characters of the collapsed string: a space inserted for a run, or an
original non-hyphen-non-space character. -/
theorem mem_collapseGo (c : Char) :
    ∀ (flag : Bool) (l : List Char), c ∈ collapseGo flag l →
      c = ' ' ∨ (c ∈ l ∧ isHypSpace c = false) := by
  intro flag l
  induction l generalizing flag with
  | nil => intro h; exact absurd h (by cases flag <;> simp [collapseGo])
  | cons d ds ih =>
    intro h
    rw [show collapseGo flag (d :: ds) =
        (if isHypSpace d then
          (if flag then collapseGo true ds else ' ' :: collapseGo true ds)
         else d :: collapseGo false ds) from rfl] at h
    split at h
    · split at h
      · exact (ih true h).imp_right (fun hc => ⟨List.mem_cons_of_mem d hc.1, hc.2⟩)
      · rcases List.mem_cons.mp h with hc | hc
        · exact Or.inl hc
        · exact (ih true hc).imp_right (fun hcc => ⟨List.mem_cons_of_mem d hcc.1, hcc.2⟩)
    · rcases List.mem_cons.mp h with hc | hc
      · rename_i hd
        exact Or.inr ⟨hc ▸ List.mem_cons_self d ds, hc ▸ Bool.not_eq_true _ ▸ hd⟩
      · exact (ih false hc).imp_right (fun hcc => ⟨List.mem_cons_of_mem d hcc.1, hcc.2⟩)

theorem sublist_foldl_stripOneSuffix (ss : List String) (l : List Char) :
    (ss.foldl (fun acc s => stripOneSuffix s.toList acc) l).Sublist l := by
  induction ss generalizing l with
  | nil => exact List.Sublist.refl l
  | cons s ss ih =>
    refine (ih (stripOneSuffix s.toList l)).trans ?_
    unfold stripOneSuffix
    split
    · exact List.take_sublist _ l
    · exact List.Sublist.refl l

theorem mem_stripSuffixes (c : Char) (l : List Char) (h : c ∈ stripSuffixes l) :
    c ∈ l :=
  (sublist_foldl_stripOneSuffix _ l).mem h

theorem mem_rstrip (c : Char) (l : List Char) (h : c ∈ rstrip l) : c ∈ l := by
  induction l with
  | nil => exact absurd h (by simp [rstrip])
  | cons d ds ih =>
    rw [show rstrip (d :: ds) =
        (match rstrip ds with
         | [] => if isSpaceChar d then [] else [d]
         | r => d :: r) from rfl] at h
    rcases hr : rstrip ds with _ | ⟨r0, rs⟩ <;> rw [hr] at h
    · by_cases hsd : isSpaceChar d = true
      · rw [if_pos hsd] at h
        exact absurd h (by simp)
      · rw [if_neg hsd] at h
        simp only [List.mem_singleton] at h
        exact h ▸ List.mem_cons_self _ _
    · rcases List.mem_cons.mp h with hc | hc
      · exact hc ▸ List.mem_cons_self d ds
      · exact List.mem_cons_of_mem d (ih (hr ▸ hc))

theorem mem_pyStrip (c : Char) (l : List Char) (h : c ∈ pyStrip l) : c ∈ l :=
  (List.dropWhile_sublist isSpaceChar).mem (mem_rstrip c _ h)

/-- Every character of a normalized name is a lower-case-fixed character:
either an inserted space or a lower-cased character of the input. -/
theorem normalizeBookName_chars (c : Char) (x : List Char)
    (h : c ∈ normalizeBookName x) : lowerChar c = c := by
  unfold normalizeBookName at h
  split at h
  · exact absurd h (by simp)
  · have h1 := mem_pyStrip c _ h
    have h2 := mem_stripSuffixes c _ h1
    rcases mem_collapseGo c false _ h2 with hc | ⟨hc, _⟩
    · exact hc ▸ lowerChar_space
    · have h3 := List.mem_filter.mp hc
      have h4 := mem_removeBrackets c _ h3.1
      have h5 := mem_stripPrefixes c _ h4
      obtain ⟨d, _, hd⟩ := List.mem_map.mp h5
      exact hd ▸ lowerChar_lowerChar d

/-! ## Arithmetic characterizations of the character classes -/

theorem char_eq_iff (c d : Char) : c = d ↔ c.toNat = d.toNat :=
  ⟨congrArg Char.toNat, char_toNat_inj c d⟩

theorem isWordChar_iff (c : Char) :
    isWordChar c = true ↔
      (97 ≤ c.toNat ∧ c.toNat ≤ 122) ∨ (65 ≤ c.toNat ∧ c.toNat ≤ 90) ∨
      (48 ≤ c.toNat ∧ c.toNat ≤ 57) ∨ c.toNat = 95 := by
  unfold isWordChar isAsciiLower isAsciiUpper isDigitChar
  simp only [Bool.or_eq_true, Bool.and_eq_true, decide_eq_true_eq]
  constructor
  · rintro (((h | h) | h) | h)
    exacts [Or.inl h, Or.inr (Or.inl h), Or.inr (Or.inr (Or.inl h)),
      Or.inr (Or.inr (Or.inr (congrArg Char.toNat h)))]
  · rintro (h | h | h | h)
    exacts [Or.inl (Or.inl (Or.inl h)), Or.inl (Or.inl (Or.inr h)),
      Or.inl (Or.inr h), Or.inr (char_toNat_inj c '_' h)]

theorem isSpaceChar_iff (c : Char) :
    isSpaceChar c = true ↔
      c.toNat = 32 ∨ c.toNat = 9 ∨ c.toNat = 10 ∨ c.toNat = 13 ∨
      c.toNat = 11 ∨ c.toNat = 12 := by
  unfold isSpaceChar
  simp only [Bool.or_eq_true, decide_eq_true_eq]
  constructor
  · rintro (((((h | h) | h) | h) | h) | h)
    exacts [Or.inl (congrArg Char.toNat h), Or.inr (Or.inl (congrArg Char.toNat h)),
      Or.inr (Or.inr (Or.inl (congrArg Char.toNat h))),
      Or.inr (Or.inr (Or.inr (Or.inl (congrArg Char.toNat h)))),
      Or.inr (Or.inr (Or.inr (Or.inr (Or.inl h)))),
      Or.inr (Or.inr (Or.inr (Or.inr (Or.inr h))))]
  · rintro (h | h | h | h | h | h)
    exacts [Or.inl (Or.inl (Or.inl (Or.inl (Or.inl (char_toNat_inj c ' ' h))))),
      Or.inl (Or.inl (Or.inl (Or.inl (Or.inr (char_toNat_inj c '\t' h))))),
      Or.inl (Or.inl (Or.inl (Or.inr (char_toNat_inj c '\n' h)))),
      Or.inl (Or.inl (Or.inr (char_toNat_inj c '\r' h))),
      Or.inl (Or.inr h), Or.inr h]

theorem isHypSpace_iff (c : Char) :
    isHypSpace c = true ↔
      c.toNat = 45 ∨ c.toNat = 32 ∨ c.toNat = 9 ∨ c.toNat = 10 ∨
      c.toNat = 13 ∨ c.toNat = 11 ∨ c.toNat = 12 := by
  unfold isHypSpace
  simp only [Bool.or_eq_true, decide_eq_true_eq, isSpaceChar_iff]
  constructor
  · rintro (h | h)
    · exact Or.inl (congrArg Char.toNat h)
    · exact Or.inr h
  · rintro (h | h)
    · exact Or.inl (char_toNat_inj c '-' h)
    · exact Or.inr h

/-- A word character is neither a hyphen nor whitespace. -/
theorem word_not_hyp (c : Char) (h : isWordChar c = true) :
    isHypSpace c = false := by
  rw [Bool.eq_false_iff]
  intro hh
  have h1 := (isWordChar_iff c).mp h
  have h2 := (isHypSpace_iff c).mp hh
  omega

theorem space_isHypSpace (c : Char) (h : isSpaceChar c = true) :
    isHypSpace c = true := by
  unfold isHypSpace
  rw [h, Bool.or_true]

/-! ## Characters of a normalized name are words or single spaces -/

/-- The character-class invariant of `_normalize_book_name`'s output. -/
theorem normalizeBookName_word_or_space (x : List Char) :
    ∀ c ∈ normalizeBookName x, c = ' ' ∨ isWordChar c = true := by
  intro c h
  unfold normalizeBookName at h
  split at h
  · exact absurd h (by simp)
  · have h1 := mem_pyStrip c _ h
    have h2 := mem_stripSuffixes c _ h1
    rcases mem_collapseGo c false _ h2 with hc | ⟨hc, hnh⟩
    · exact Or.inl hc
    · have h3 := (List.mem_filter.mp hc).2
      rcases Bool.or_eq_true_iff.mp h3 with h4 | h4
      · rcases Bool.or_eq_true_iff.mp h4 with h5 | h5
        · exact Or.inr h5
        · exact absurd (space_isHypSpace c h5) (by rw [hnh]; simp)
      · rw [decide_eq_true_eq] at h4
        subst h4
        exact absurd hnh (by decide)

/-! ## The no-double-separator invariant -/

/-- Adjacent characters are never both hyphen-or-space. -/
def noHSPair (a b : Char) : Prop := isHypSpace a = false ∨ isHypSpace b = false

theorem collapseGo_true_head (l : List Char) :
    ∀ d, (collapseGo true l).head? = some d → isHypSpace d = false := by
  induction l with
  | nil => intro d h; exact absurd h (by simp [collapseGo])
  | cons c cs ih =>
    intro d h
    rw [show collapseGo true (c :: cs) =
        (if isHypSpace c then collapseGo true cs else c :: collapseGo false cs)
      from rfl] at h
    split at h
    · exact ih d h
    · rename_i hc
      simp only [List.head?_cons, Option.some.injEq] at h
      exact h ▸ Bool.not_eq_true _ ▸ hc

theorem collapseGo_chain (l : List Char) :
    ∀ flag, List.Chain' noHSPair (collapseGo flag l) := by
  induction l with
  | nil => intro flag; simp [collapseGo]
  | cons c cs ih =>
    intro flag
    by_cases hc : isHypSpace c = true
    · rcases flag with _ | _
      · rw [show collapseGo false (c :: cs) =
            (if isHypSpace c then ' ' :: collapseGo true cs
             else c :: collapseGo false cs) from rfl, if_pos hc]
        rw [List.chain'_cons']
        exact ⟨fun y hy => Or.inr (collapseGo_true_head cs y hy), ih true⟩
      · rw [show collapseGo true (c :: cs) =
            (if isHypSpace c then collapseGo true cs
             else c :: collapseGo false cs) from rfl, if_pos hc]
        exact ih true
    · have hcb : isHypSpace c = false := Bool.not_eq_true _ ▸ hc
      have hstep : ∀ fl : Bool, collapseGo fl (c :: cs) = c :: collapseGo false cs := by
        intro fl
        cases fl <;> simp [collapseGo, hcb]
      rw [hstep flag, List.chain'_cons']
      exact ⟨fun y _ => Or.inl hcb, ih false⟩

theorem rstrip_prefix_of (l : List Char) : rstrip l <+: l := by
  induction l with
  | nil => exact List.prefix_refl []
  | cons c cs ih =>
    rw [show rstrip (c :: cs) =
        (match rstrip cs with
         | [] => if isSpaceChar c then [] else [c]
         | r => c :: r) from rfl]
    rcases hr : rstrip cs with _ | ⟨r0, rs⟩
    · by_cases hsc : isSpaceChar c = true
      · rw [if_pos hsc]
        exact List.nil_prefix
      · rw [if_neg hsc]
        exact ⟨cs, rfl⟩
    · rw [hr] at ih
      obtain ⟨t, ht⟩ := ih
      exact ⟨t, by rw [List.cons_append, ht]⟩

theorem chain_stripOneSuffix {R : Char → Char → Prop} (s l : List Char)
    (h : List.Chain' R l) : List.Chain' R (stripOneSuffix s l) := by
  unfold stripOneSuffix
  split
  · exact List.Chain'.prefix h ( List.take_prefix _ l)
  · exact h

theorem chain_foldl_stripOneSuffix {R : Char → Char → Prop} (ss : List String)
    (l : List Char) (h : List.Chain' R l) :
    List.Chain' R (ss.foldl (fun acc s => stripOneSuffix s.toList acc) l) := by
  induction ss generalizing l with
  | nil => exact h
  | cons s ss ih => exact ih _ (chain_stripOneSuffix s.toList l h)

theorem chain_stripSuffixes {R : Char → Char → Prop} (l : List Char)
    (h : List.Chain' R l) : List.Chain' R (stripSuffixes l) :=
  chain_foldl_stripOneSuffix _ l h

theorem chain_pyStrip {R : Char → Char → Prop} (l : List Char)
    (h : List.Chain' R l) : List.Chain' R (pyStrip l) :=
  List.Chain'.prefix (List.Chain'.suffix h (List.dropWhile_suffix isSpaceChar))
    (rstrip_prefix_of _)

/-- The adjacency invariant of `_normalize_book_name`'s output. -/
theorem normalizeBookName_chain (x : List Char) :
    List.Chain' noHSPair (normalizeBookName x) := by
  rw [normalizeBookName_eq]
  by_cases hx : x.isEmpty = true
  · rw [if_pos hx]
    simp
  · rw [if_neg hx]
    generalize removeSpecial (removeBrackets (stripPrefixes (lowerStr x))) = L
    exact chain_pyStrip _ (chain_stripSuffixes _ (collapseGo_chain L false))

/-! ## Stage identities on an already-normalized name -/

theorem removeBracketsGo_none_id (l : List Char)
    (h : ∀ c ∈ l, isOpenBracket c = false) : removeBracketsGo none l = l := by
  induction l with
  | nil => rfl
  | cons c cs ih =>
    rw [show removeBracketsGo none (c :: cs) =
        (if isOpenBracket c then removeBracketsGo (some [c]) cs
         else c :: removeBracketsGo none cs) from rfl]
    rw [if_neg (by rw [h c (List.mem_cons_self c cs)]; simp)]
    rw [ih (fun d hd => h d (List.mem_cons_of_mem c hd))]

theorem collapseGo_id (l : List Char)
    (hW : ∀ c ∈ l, isHypSpace c = true → c = ' ')
    (hch : List.Chain' noHSPair l) :
    collapseGo false l = l ∧
    ((∀ d, l.head? = some d → isHypSpace d = false) → collapseGo true l = l) := by
  induction l with
  | nil => exact ⟨rfl, fun _ => rfl⟩
  | cons c cs ih =>
    have hWcs : ∀ c ∈ cs, isHypSpace c = true → c = ' ' :=
      fun d hd => hW d (List.mem_cons_of_mem c hd)
    obtain ⟨ih1, ih2⟩ := ih hWcs hch.tail
    by_cases hc : isHypSpace c = true
    · have hcsp : c = ' ' := hW c (List.mem_cons_self c cs) hc
      have hhead : ∀ d, cs.head? = some d → isHypSpace d = false := by
        intro d hd
        rcases (List.chain'_cons'.mp hch).1 d hd with h | h
        · rw [hc] at h
          exact absurd h (by simp)
        · exact h
      constructor
      · rw [show collapseGo false (c :: cs) =
            (if isHypSpace c then ' ' :: collapseGo true cs
             else c :: collapseGo false cs) from rfl, if_pos hc,
          ih2 hhead, hcsp]
      · intro hhd
        have := hhd c rfl
        rw [hc] at this
        exact absurd this (by simp)
    · have hcb : isHypSpace c = false := Bool.not_eq_true _ ▸ hc
      constructor
      · rw [show collapseGo false (c :: cs) =
            (if isHypSpace c then ' ' :: collapseGo true cs
             else c :: collapseGo false cs) from rfl, if_neg (by rw [hcb]; simp),
          ih1]
      · intro _
        rw [show collapseGo true (c :: cs) =
            (if isHypSpace c then collapseGo true cs
             else c :: collapseGo false cs) from rfl, if_neg (by rw [hcb]; simp),
          ih1]

theorem dropWhile_idem (p : Char → Bool) (l : List Char) :
    (l.dropWhile p).dropWhile p = l.dropWhile p := by
  induction l with
  | nil => rfl
  | cons c cs ih =>
    rw [List.dropWhile_cons]
    split
    · exact ih
    · rename_i h
      rw [List.dropWhile_cons, if_neg h]

theorem rstrip_idem (l : List Char) : rstrip (rstrip l) = rstrip l := by
  induction l with
  | nil => rfl
  | cons c cs ih =>
    rw [show rstrip (c :: cs) =
        (match rstrip cs with
         | [] => if isSpaceChar c then [] else [c]
         | r => c :: r) from rfl]
    rcases hr : rstrip cs with _ | ⟨r0, rs⟩
    · by_cases hsc : isSpaceChar c = true
      · rw [if_pos hsc]
        rfl
      · rw [if_neg hsc]
        show (if isSpaceChar c = true then ([] : List Char) else [c]) = [c]
        rw [if_neg hsc]
    · rw [hr] at ih
      show rstrip (c :: r0 :: rs) = c :: r0 :: rs
      rw [show rstrip (c :: r0 :: rs) =
          (match rstrip (r0 :: rs) with
           | [] => if isSpaceChar c then [] else [c]
           | r => c :: r) from rfl, ih]

theorem dropWhile_head_false (p : Char → Bool) (l : List Char) (c : Char)
    (cs : List Char) (h : l.dropWhile p = c :: cs) : p c = false := by
  induction l with
  | nil => exact absurd h (by simp)
  | cons d ds ih =>
    rw [List.dropWhile_cons] at h
    split at h
    · exact ih h
    · rename_i hp
      obtain ⟨h1, _⟩ := List.cons.inj h
      exact h1 ▸ Bool.not_eq_true _ ▸ hp

theorem rstrip_cons_shape (m : List Char) (c : Char) (r : List Char)
    (h : rstrip m = c :: r) : ∃ t, m = c :: t := by
  cases m with
  | nil => exact absurd h (by simp [rstrip])
  | cons d ds =>
    rw [show rstrip (d :: ds) =
        (match rstrip ds with
         | [] => if isSpaceChar d then [] else [d]
         | r => d :: r) from rfl] at h
    rcases hr : rstrip ds with _ | ⟨r0, rs⟩ <;> rw [hr] at h
    · by_cases hsd : isSpaceChar d = true
      · rw [if_pos hsd] at h
        exact absurd h (by simp)
      · rw [if_neg hsd] at h
        obtain ⟨h1, _⟩ := List.cons.inj h
        exact ⟨ds, by rw [h1]⟩
    · obtain ⟨h1, _⟩ := List.cons.inj h
      exact ⟨ds, by rw [h1]⟩

theorem pyStrip_idem (l : List Char) : pyStrip (pyStrip l) = pyStrip l := by
  unfold pyStrip lstrip
  rcases hcase : rstrip (l.dropWhile isSpaceChar) with _ | ⟨c, r⟩
  · rw [show List.dropWhile isSpaceChar [] = [] from rfl]
    rfl
  · obtain ⟨t, ht⟩ := rstrip_cons_shape _ c r hcase
    have hc : isSpaceChar c = false := dropWhile_head_false isSpaceChar l c t ht
    rw [List.dropWhile_cons, if_neg (by rw [hc]; simp)]
    rw [← hcase, rstrip_idem]

/-- `pyStrip` fixes every normalized name. -/
theorem pyStrip_normalizeBookName (x : List Char) :
    pyStrip (normalizeBookName x) = normalizeBookName x := by
  unfold normalizeBookName
  split
  · rfl
  · exact pyStrip_idem _

/-! ## Claim C9: the normalizer output is case- and whitespace-canonical -/

theorem list_map_id (f : Char → Char) (l : List Char) (h : ∀ c ∈ l, f c = c) :
    l.map f = l := by
  induction l with
  | nil => rfl
  | cons c cs ih =>
    rw [List.map_cons, h c (List.mem_cons_self c cs),
      ih (fun d hd => h d (List.mem_cons_of_mem c hd))]

/-- C9: for every input string, the normalized book name contains no
upper-case ASCII letter and no leading or trailing whitespace: it is a
fixed point of lower-casing and of stripping. -/
theorem claim9_normalized_fixed_point (x : List Char) :
    lowerStr (normalizeBookName x) = normalizeBookName x ∧
    pyStrip (normalizeBookName x) = normalizeBookName x ∧
    ∀ c ∈ normalizeBookName x, isAsciiUpper c = false := by
  refine ⟨?_, pyStrip_normalizeBookName x, ?_⟩
  · exact list_map_id lowerChar _ (fun c hc => normalizeBookName_chars c x hc)
  · intro c hc
    exact isAsciiUpper_of_lowerChar_fix c (normalizeBookName_chars c x hc)

/-! ## Claim C3: idempotence of the normalizer -/

/-- C3 counterexample: stripping the article "a" exposes the article "the",
so a second normalization strips further:
`normalize "a the x" = "the x"` but `normalize "the x" = "x"`. -/
theorem claim3_counterexample :
    normalizeBookName (normalizeBookName "a the x".toList) ≠
      normalizeBookName "a the x".toList := by
  decide

/-- C3 (amended): the normalizer is idempotent exactly on the inputs whose
normal form is not further reducible by the leading-article strip or the
trailing-suffix strip; under those two conditions a second normalization
is the identity (in general idempotence fails, as a stripped prefix or
suffix can expose another). -/
theorem claim3_amended_conditional_idempotence (x : List Char)
    (hp : stripPrefixes (normalizeBookName x) = normalizeBookName x)
    (hs : stripSuffixes (normalizeBookName x) = normalizeBookName x) :
    normalizeBookName (normalizeBookName x) = normalizeBookName x := by
  by_cases hy : (normalizeBookName x).isEmpty = true
  · rw [normalizeBookName_eq (normalizeBookName x), if_pos hy]
    exact (List.isEmpty_iff.mp hy).symm
  · have hlower : lowerStr (normalizeBookName x) = normalizeBookName x :=
      list_map_id lowerChar _ (fun c hc => normalizeBookName_chars c x hc)
    have hWS := normalizeBookName_word_or_space x
    have hRB : removeBrackets (normalizeBookName x) = normalizeBookName x := by
      apply removeBracketsGo_none_id
      intro c hc
      rcases hWS c hc with h | h
      · rw [h]; decide
      · exact word_not_open c h
    have hRS : removeSpecial (normalizeBookName x) = normalizeBookName x := by
      apply List.filter_eq_self.mpr
      intro c hc
      rcases hWS c hc with h | h
      · rw [h]; decide
      · rw [h]; simp
    have hCR : collapseRuns (normalizeBookName x) = normalizeBookName x := by
      apply (collapseGo_id _ ?_ (normalizeBookName_chain x)).1
      intro c hc hh
      rcases hWS c hc with h | h
      · exact h
      · exact absurd hh (by rw [word_not_hyp c h]; simp)
    rw [normalizeBookName_eq (normalizeBookName x), if_neg hy, hlower, hp, hRB,
      hRS, hCR, hs, pyStrip_normalizeBookName]

/-- C3 (amended) witness: "clean code" is its own normal form and neither
strip applies to it, so normalization is idempotent there. -/
theorem claim3_amended_witness :
    stripPrefixes (normalizeBookName "clean code".toList) =
      normalizeBookName "clean code".toList ∧
    stripSuffixes (normalizeBookName "clean code".toList) =
      normalizeBookName "clean code".toList ∧
    normalizeBookName (normalizeBookName "clean code".toList) =
      normalizeBookName "clean code".toList :=
  ⟨by decide, by decide,
    claim3_amended_conditional_idempotence "clean code".toList (by decide) (by decide)⟩

end LibOrg
